import Mathlib

/-!
Verification development for the SigMontion signature-tracing core.

The definitions below are a shallow embedding of the TypeScript sources
`src/services/localTracer.ts` and `src/services/motionPlanner.ts`.
JavaScript numbers are modelled as exact rationals (`ℚ`) where the source
only performs field arithmetic and comparisons, and as reals (`ℝ`) where
`Math.sqrt` / trigonometric functions are involved.  A JavaScript value
that can be `undefined`/`NaN` is modelled as `Option`, `none` standing for
the absent/NaN value (`undefined` and `NaN` are collapsed: both poison
arithmetic and make every `<`/`>` comparison false, which is the only way
the planner observes them).
-/

namespace SigMontion

/-- `Math.round` on an exact rational: JavaScript rounds half-way cases
towards positive infinity, i.e. `round q = ⌊q + 1/2⌋`. -/
def jround (q : ℚ) : ℤ := ⌊q + 1/2⌋

/-- A traced point on the resolution-independent 0–10000 grid
(`RawPoint` in `types.ts`): integer coordinates, optional normalized
thickness `z` and optional opacity `a`. -/
structure RawPoint where
  x : ℤ
  y : ℤ
  z : Option ℚ
  a : Option ℚ
deriving DecidableEq, Repr

instance : Inhabited RawPoint := ⟨⟨0, 0, none, none⟩⟩

/-- A stroke: an ordered sequence of raw points (`Stroke` in `types.ts`;
the optional `pressure`/`type` fields are never read by the core and are
omitted). -/
structure Stroke where
  points : List RawPoint
deriving DecidableEq, Repr

instance : Inhabited Stroke := ⟨⟨[]⟩⟩

/-- Squared distance between two raw points (`distSq` in
`localTracer.ts`). -/
def distSq (p1 p2 : RawPoint) : ℤ := (p1.x - p2.x) ^ 2 + (p1.y - p2.y) ^ 2

/-! ### Weighted smoothing (`smoothPoints` in `localTracer.ts`) -/

/-- One smoothed interior point: positions get the 0.1/0.8/0.1 weighted
average (rounded), `z`/`a` are smoothed only when present on all three
neighbouring points. -/
def smoothOne (prev curr next : RawPoint) : RawPoint :=
  { x := jround ((1/10 : ℚ) * prev.x + (8/10) * curr.x + (1/10) * next.x)
    y := jround ((1/10 : ℚ) * prev.y + (8/10) * curr.y + (1/10) * next.y)
    z := match curr.z, prev.z, next.z with
         | some cz, some pz, some nz => some ((1/10) * pz + (8/10) * cz + (1/10) * nz)
         | cz, _, _ => cz
    a := match curr.a, prev.a, next.a with
         | some ca, some pa, some na => some ((1/10) * pa + (8/10) * ca + (1/10) * na)
         | ca, _, _ => ca }

/-- Interior loop of `smoothPoints`: slides a window over the input; the
first argument is the previous input point. -/
def smoothAux (prev : RawPoint) : List RawPoint → List RawPoint
  | curr :: next :: rest => smoothOne prev curr next :: smoothAux curr (next :: rest)
  | [last] => [last]
  | [] => []

/-- `smoothPoints`: 3-tap weighted smoothing, first and last points kept
fixed; inputs shorter than 3 are returned unchanged. -/
def smoothPoints (points : List RawPoint) : List RawPoint :=
  if points.length < 3 then points
  else
    match points with
    | p0 :: rest => p0 :: smoothAux p0 rest
    | [] => []

/-! ### Jitter filter (`filterJitter` in `localTracer.ts`) -/

/-- The spike test of one jitter pass: both adjacent segments shorter
than 50 units (squared threshold 2500) and a sharp turn (negative dot
product with positive squared magnitude product). -/
def isSpike (prev curr next : RawPoint) : Bool :=
  let d1 := distSq prev curr
  let d2 := distSq curr next
  if d1 < 2500 ∧ d2 < 2500 then
    let dot := (curr.x - prev.x) * (next.x - curr.x) + (curr.y - prev.y) * (next.y - curr.y)
    let magSq := d1 * d2
    decide (magSq > 0 ∧ dot < 0)
  else false

/-- Interior loop of one jitter pass: the window slides over the input
(the `prev` point advances whether or not `curr` is kept, matching the
source's indexing into the unmodified input array). -/
def jitterAux (prev : RawPoint) : List RawPoint → List RawPoint
  | curr :: next :: rest =>
      (if isSpike prev curr next then [] else [curr]) ++ jitterAux curr (next :: rest)
  | [last] => [last]
  | [] => []

/-- One pass of the jitter filter: first point kept, interior filtered,
last point kept. -/
def jitterPass : List RawPoint → List RawPoint
  | p0 :: rest => p0 :: jitterAux p0 rest
  | [] => []

/-- `filterJitter`: two passes of the spike remover; a pass result with
fewer than 3 points is returned immediately. -/
def filterJitter (points : List RawPoint) : List RawPoint :=
  if points.length < 3 then points
  else
    let clean1 := jitterPass points
    if clean1.length < 3 then clean1
    else
      -- second pass; the source returns the result whether or not it is
      -- shorter than 3 (`if clean.length < 3 return clean` followed by
      -- `return input` with `input = clean` yield the same value)
      jitterPass clean1

/-! ### Pointwise simplification (lines 569–590 of `localTracer.ts`) -/

/-- The keep test of the simplifier: perpendicular deviation (squared,
via the triangle-area formula) of `curr` from the segment
`prevKept`–`next` exceeds 30; degenerate bases (`baseSq < 1`) are
dropped. -/
def keepSimplify (prevKept curr next : RawPoint) : Bool :=
  let area : ℚ := |(1/2 : ℚ) *
    ((prevKept.x : ℚ) * ((curr.y : ℚ) - (next.y : ℚ)) +
     (curr.x : ℚ) * ((next.y : ℚ) - (prevKept.y : ℚ)) +
     (next.x : ℚ) * ((prevKept.y : ℚ) - (curr.y : ℚ)))|
  let dx := next.x - prevKept.x
  let dy := next.y - prevKept.y
  let baseSq : ℤ := dx * dx + dy * dy
  if baseSq < 1 then false
  else decide ((4 * area ^ 2) / (baseSq : ℚ) > 30)

/-- Interior loop of the simplifier.  `prevKept` is the last point pushed
to the output (`finalPoints[finalPoints.length - 1]` in the source),
`accRev` the reversed output so far. -/
def simplifyAux (prevKept : RawPoint) (accRev : List RawPoint) :
    List RawPoint → List RawPoint
  | curr :: next :: rest =>
      if keepSimplify prevKept curr next then
        simplifyAux curr (curr :: accRev) (next :: rest)
      else
        simplifyAux prevKept accRev (next :: rest)
  | [last] => (last :: accRev).reverse
  | [] => accRev.reverse

/-- The pointwise Douglas–Peucker-style reducer: keeps the first point,
filters the interior by `keepSimplify`, and always appends the last
point (on a one-point input the source pushes that point twice). -/
def simplifyPoints : List RawPoint → List RawPoint
  | [p0] => [p0, p0]
  | p0 :: rest => simplifyAux p0 [p0] rest
  | [] => []

/-! ### Lemmas about the simplifier -/

theorem simplifyAux_head? (l : List RawPoint) (prev : RawPoint) (accRev : List RawPoint)
    (h : accRev ≠ []) : (simplifyAux prev accRev l).head? = accRev.getLast? := by
  induction l generalizing prev accRev with
  | nil => simp [simplifyAux]
  | cons a t ih =>
    cases t with
    | nil =>
      obtain ⟨c, cs, rfl⟩ := List.exists_cons_of_ne_nil h
      simp only [simplifyAux, List.head?_reverse, List.getLast?_cons_cons]
    | cons b t' =>
      rw [simplifyAux]
      split
      · rw [ih _ _ (by simp)]
        obtain ⟨c, cs, rfl⟩ := List.exists_cons_of_ne_nil h
        simp [List.getLast?_cons_cons]
      · exact ih _ _ h

theorem simplifyAux_getLast? (l : List RawPoint) (prev : RawPoint) (accRev : List RawPoint)
    (h : l ≠ []) : (simplifyAux prev accRev l).getLast? = l.getLast? := by
  induction l generalizing prev accRev with
  | nil => exact absurd rfl h
  | cons a t ih =>
    cases t with
    | nil => simp [simplifyAux]
    | cons b t' =>
      rw [simplifyAux]
      split
      · rw [ih _ _ (by simp), List.getLast?_cons_cons]
      · rw [ih _ _ (by simp), List.getLast?_cons_cons]

/-- C7: for every stroke that reaches the simplification stage (the
jitter-filtered point list has at least 3 points, the guard on line 567
of `localTracer.ts`), the simplified output starts with the
jitter-filtered input's first point and ends with its last point:
simplification never drops or alters endpoints. -/
theorem simplify_preserves_endpoints (pts : List RawPoint)
    (h : 3 ≤ (filterJitter pts).length) :
    (simplifyPoints (filterJitter pts)).head? = (filterJitter pts).head? ∧
    (simplifyPoints (filterJitter pts)).getLast? = (filterJitter pts).getLast? := by
  set jfp := filterJitter pts with hjfp
  match hm : jfp with
  | [] => simp at h
  | [p0] => simp at h
  | [p0, p1] => simp at h
  | p0 :: p1 :: p2 :: rest =>
    constructor
    · rw [show simplifyPoints (p0 :: p1 :: p2 :: rest) =
            simplifyAux p0 [p0] (p1 :: p2 :: rest) from rfl]
      rw [simplifyAux_head? _ _ _ (by simp)]
      simp
    · rw [show simplifyPoints (p0 :: p1 :: p2 :: rest) =
            simplifyAux p0 [p0] (p1 :: p2 :: rest) from rfl]
      rw [simplifyAux_getLast? _ _ _ (by simp)]
      simp [List.getLast?_cons_cons]

/-- A concrete 3-point stroke used as a witness input: three collinear
points 1000 units apart (far beyond the jitter threshold, so the jitter
filter keeps all of them). -/
def exSimplifyInput : List RawPoint :=
  [⟨0, 0, none, none⟩, ⟨1000, 0, none, none⟩, ⟨2000, 0, none, none⟩]

/-- Witness for `simplify_preserves_endpoints` at a concrete stroke. -/
theorem simplify_preserves_endpoints_witness :
    3 ≤ (filterJitter exSimplifyInput).length ∧
    ((simplifyPoints (filterJitter exSimplifyInput)).head? =
        (filterJitter exSimplifyInput).head? ∧
     (simplifyPoints (filterJitter exSimplifyInput)).getLast? =
        (filterJitter exSimplifyInput).getLast?) :=
  ⟨by decide, simplify_preserves_endpoints exSimplifyInput (by decide)⟩

/-! ### Stroke order solver (`optimizeStrokeOrder` in `localTracer.ts`)

The solver works on per-stroke metadata records.  The JS `Infinity`
initialisers are modelled by `Option` accumulators (`none` = nothing
found yet), and the JS stable `sort` by a stable `mergeSort`.  The
source's `start`/`end` fields are renamed `startPt`/`endPt` (Lean
keywords).  Divisions `sum / points.length` are exact rationals; the
empty-points case (where JS would produce `NaN`/`undefined` and crash on
member access) is given by the `headI`/`getLastD` defaults and is
excluded by the claims' preconditions. -/

structure StrokeMeta where
  stroke : Stroke
  cx : ℚ
  cy : ℚ
  minX : ℤ
  maxX : ℤ
  minY : ℤ
  maxY : ℤ
  width : ℤ
  height : ℤ
  startPt : RawPoint
  endPt : RawPoint
deriving DecidableEq, Repr

instance : Inhabited StrokeMeta :=
  ⟨⟨default, 0, 0, 0, 0, 0, 0, 0, 0, default, default⟩⟩

/-- `getMeta`: bounding box, centroid and endpoints of a stroke. -/
def getMeta (s : Stroke) : StrokeMeta :=
  let xs : List ℤ := s.points.map (·.x)
  let ys : List ℤ := s.points.map (·.y)
  let minX := (xs.min?).getD 0
  let maxX := (xs.max?).getD 0
  let minY := (ys.min?).getD 0
  let maxY := (ys.max?).getD 0
  { stroke := s
    cx := (xs.sum : ℚ) / (s.points.length : ℚ)
    cy := (ys.sum : ℚ) / (s.points.length : ℚ)
    minX := minX, maxX := maxX, minY := minY, maxY := maxY
    width := maxX - minX
    height := maxY - minY
    startPt := s.points.headI
    endPt := s.points.getLastD default }

/-- Deep clone of a stroke list (`cloneStrokes` in the source); in the
value semantics of the embedding this is provably the identity. -/
def cloneStrokes (src : List Stroke) : List Stroke :=
  src.map (fun s => ⟨s.points.map (fun p => ⟨p.x, p.y, p.z, p.a⟩)⟩)

/-- Reversing a chosen stroke also swaps the cached endpoints (the
`points.reverse()` plus `start`/`end` swap in the source). -/
def reverseMeta (m : StrokeMeta) : StrokeMeta :=
  { m with stroke := ⟨m.stroke.points.reverse⟩, startPt := m.endPt, endPt := m.startPt }

/-- The two candidate costs (connect at the candidate's start, or at its
end) for one pool entry, with the optional backward/vertical bias. -/
def candCosts (useBias : Bool) (curr cand : StrokeMeta) : ℚ × ℚ :=
  let dStart : ℤ := distSq curr.endPt cand.startPt
  let dEnd : ℤ := distSq curr.endPt cand.endPt
  let isBackStart := cand.cx < (curr.endPt.x : ℚ) - 500
  let isBackEnd := cand.cx < (curr.endPt.x : ℚ) - 500
  if useBias then
    let costStart : ℚ := if isBackStart ∧ dStart > 2500 then (dStart : ℚ) * 5 else (dStart : ℚ)
    let costEnd : ℚ := if isBackEnd ∧ dEnd > 2500 then (dEnd : ℚ) * 5 else (dEnd : ℚ)
    let yDiff := |cand.cy - curr.cy|
    (costStart + yDiff * 5, costEnd + yDiff * 5)
  else ((dStart : ℚ), (dEnd : ℚ))

/-- One `cost < bestCost` update of the best-candidate accumulator
(`none` plays the role of the `bestCost = Infinity` initialiser). -/
def updBest (best : Option (ℕ × ℚ × Bool)) (i : ℕ) (cost : ℚ) (rev : Bool) :
    Option (ℕ × ℚ × Bool) :=
  match best with
  | none => some (i, cost, rev)
  | some (_, bc, _) => if cost < bc then some (i, cost, rev) else best

/-- The inner candidate scan of the solver's greedy loop: `i` is the
running pool index, each candidate is tried with `costStart` (keep
direction) and then `costEnd` (reverse). -/
def selectAux (useBias : Bool) (curr : StrokeMeta) :
    ℕ → Option (ℕ × ℚ × Bool) → List StrokeMeta → Option (ℕ × ℚ × Bool)
  | _, best, [] => best
  | i, best, cand :: rest =>
      let (costStart, costEnd) := candCosts useBias curr cand
      selectAux useBias curr (i + 1)
        (updBest (updBest best i costStart false) i costEnd true) rest

/-- Pick the cheapest pool entry relative to the current chain end. -/
def selectBest (useBias : Bool) (curr : StrokeMeta) (pool : List StrokeMeta) :
    Option (ℕ × ℚ × Bool) :=
  selectAux useBias curr 0 none pool

theorem updBest_isSome (best : Option (ℕ × ℚ × Bool)) (i : ℕ) (cost : ℚ) (rev : Bool) :
    (updBest best i cost rev).isSome := by
  cases best with
  | none => rfl
  | some b =>
    obtain ⟨j, bc, r⟩ := b
    simp only [updBest]
    split <;> rfl

theorem selectAux_isSome (useBias : Bool) (curr : StrokeMeta) (rest : List StrokeMeta)
    (i : ℕ) (best : Option (ℕ × ℚ × Bool)) (h : best.isSome) :
    (selectAux useBias curr i best rest).isSome := by
  induction rest generalizing i best with
  | nil => exact h
  | cons cand rest ih => exact ih _ _ (updBest_isSome _ _ _ _)

theorem selectBest_isSome (useBias : Bool) (curr : StrokeMeta) (cand : StrokeMeta)
    (rest : List StrokeMeta) : (selectBest useBias curr (cand :: rest)).isSome := by
  unfold selectBest selectAux
  exact selectAux_isSome _ _ _ _ _ (updBest_isSome _ _ _ _)

theorem updBest_idx_lt (best : Option (ℕ × ℚ × Bool)) (i : ℕ) (cost : ℚ) (rev : Bool)
    (n : ℕ) (hb : ∀ j c r, best = some (j, c, r) → j < n) (hi : i < n) :
    ∀ j c r, updBest best i cost rev = some (j, c, r) → j < n := by
  intro j c r h
  cases best with
  | none =>
    simp only [updBest, Option.some.injEq, Prod.mk.injEq] at h
    obtain ⟨rfl, -, -⟩ := h
    exact hi
  | some b =>
    obtain ⟨j', bc, r'⟩ := b
    simp only [updBest] at h
    split at h
    · cases h; exact hi
    · exact hb j c r h

theorem selectAux_idx_lt (useBias : Bool) (curr : StrokeMeta) (rest : List StrokeMeta) :
    ∀ (i : ℕ) (best : Option (ℕ × ℚ × Bool)),
      (∀ j c r, best = some (j, c, r) → j < i + rest.length) →
      ∀ j c r, selectAux useBias curr i best rest = some (j, c, r) →
        j < i + rest.length := by
  induction rest with
  | nil => intro i best hb j c r h; exact hb j c r h
  | cons cand rest ih =>
    intro i best hb j c r h
    simp only [selectAux] at h
    have step : ∀ j c r,
        (updBest (updBest best i (candCosts useBias curr cand).1 false) i
          (candCosts useBias curr cand).2 true) = some (j, c, r) →
        j < (i + 1) + rest.length := by
      apply updBest_idx_lt
      · apply updBest_idx_lt
        · intro j' c' r' hb'
          have := hb j' c' r' hb'
          simp only [List.length_cons] at this
          omega
        · omega
      · omega
    have := ih (i + 1) _ step j c r h
    simp only [List.length_cons]
    omega

theorem selectBest_idx_lt (useBias : Bool) (curr : StrokeMeta) (pool : List StrokeMeta)
    (j : ℕ) (c : ℚ) (r : Bool) (h : selectBest useBias curr pool = some (j, c, r)) :
    j < pool.length := by
  have := selectAux_idx_lt useBias curr pool 0 none (by intro _ _ _ h'; cases h') j c r h
  simpa using this

/-- The greedy chaining loop of `solve`: repeatedly pick the cheapest
remaining stroke, reversing it when connecting at its end, and append
it to the chain.  The fuel argument is initialised to the pool length
(each iteration removes exactly one pool entry, so the fuel never runs
out before the pool does); it makes the recursion structural so that
the kernel can evaluate the solver on concrete inputs. -/
def solveLoopFuel (useBias : Bool) : ℕ → StrokeMeta → List StrokeMeta → List Stroke
  | 0, _, _ => []
  | fuel + 1, curr, pool =>
      match selectBest useBias curr pool with
      | none => []
      | some (bestIdx, _, reverseBest) =>
          let winner0 := pool.getD bestIdx default
          let winner := if reverseBest then reverseMeta winner0 else winner0
          winner.stroke :: solveLoopFuel useBias fuel winner (pool.eraseIdx bestIdx)

/-- The chaining loop with its fuel fixed to the pool size. -/
def solveLoop (useBias : Bool) (curr : StrokeMeta) (pool : List StrokeMeta) :
    List Stroke :=
  solveLoopFuel useBias pool.length curr pool

/-- `solve`: sort the pool by leftmost x (stable), seed with the first
entry (flipped left-to-right when its natural end is left of its start
and it is wider than tall), then chain greedily. -/
def solveOrder (inputStrokes : List Stroke) (useBias : Bool) : List Stroke :=
  match (inputStrokes.map getMeta).mergeSort (fun a b => a.minX ≤ b.minX) with
  | [] => []
  | first :: pool =>
      let curr :=
        if first.endPt.x < first.startPt.x ∧ first.width > first.height then
          reverseMeta first
        else first
      curr.stroke :: solveLoop useBias curr pool

/-- The shared scoring function (`getScore`): total consecutive endpoint
distance, plus a 50-unit penalty for each transition moving more than
100 units leftward. -/
noncomputable def getScore : List Stroke → ℝ
  | s1 :: s2 :: rest =>
      let p1 := s1.points.getLastD default
      let p2 := s2.points.headI
      Real.sqrt ((distSq p1 p2 : ℤ) : ℝ) +
        (if p2.x < p1.x - 100 then 50 else 0) + getScore (s2 :: rest)
  | _ => 0

/-- The per-stroke decoration (underline) test, with the global bounds
computed from the whole input list: wider than 35% of the total width,
centroid in the bottom 35% of the total height, and flatter than 2.5:1.
The float constants 0.35/0.65/2.5 are the exact rationals they denote. -/
def underlineFlag (strokes : List Stroke) (s : Stroke) : Bool :=
  let metas := strokes.map getMeta
  let gMinX := ((metas.map (·.minX)).min?).getD 0
  let gMaxX := ((metas.map (·.maxX)).max?).getD 0
  let gMinY := ((metas.map (·.minY)).min?).getD 0
  let gMaxY := ((metas.map (·.maxY)).max?).getD 0
  let totalW := gMaxX - gMinX
  let totalH := gMaxY - gMinY
  let m := getMeta s
  decide ((m.width : ℚ) > (totalW : ℚ) * (35/100) ∧
          m.cy > (gMinY : ℚ) + (totalH : ℚ) * (65/100) ∧
          (m.width : ℚ) > (m.height : ℚ) * (5/2))

/-- Main strokes: the non-decorations, in original order (the source
filters by an index set whose membership depends only on the stroke's
own metadata and the global bounds, so a predicate filter is
equivalent). -/
def mainStrokesOf (strokes : List Stroke) : List Stroke :=
  strokes.filter (fun s => ¬ underlineFlag strokes s)

/-- Decoration strokes, in original order. -/
def underlineStrokesOf (strokes : List Stroke) : List Stroke :=
  strokes.filter (fun s => underlineFlag strokes s)

/-- `optimizeStrokeOrder`: split off decorations, run the neutral and
biased solver on deep copies, keep the biased result when its score is
below 1.3× the neutral score, and append the decorations. -/
noncomputable def optimizeStrokeOrder (strokes : List Stroke) : List Stroke :=
  if strokes.length = 0 then []
  else
    (if getScore (solveOrder (cloneStrokes (mainStrokesOf strokes)) true) <
        getScore (solveOrder (cloneStrokes (mainStrokesOf strokes)) false) * (13/10 : ℝ)
     then solveOrder (cloneStrokes (mainStrokesOf strokes)) true
     else solveOrder (cloneStrokes (mainStrokesOf strokes)) false) ++
    cloneStrokes (underlineStrokesOf strokes)

/-! ### Permutation and selection properties of the solver -/

/-- Two strokes are the same up to direction: equal point sequences or
exact reversals. -/
def SameUpToRev (a b : Stroke) : Prop :=
  a.points = b.points ∨ a.points = b.points.reverse

theorem perm_getElem_cons_eraseIdx {α : Type _} (l : List α) (i : ℕ) (h : i < l.length) :
    l.Perm (l[i] :: l.eraseIdx i) := by
  conv_lhs => rw [← List.take_append_drop i l, List.drop_eq_getElem_cons h]
  rw [List.eraseIdx_eq_take_drop_succ]
  exact List.perm_middle

theorem cloneStrokes_id (l : List Stroke) : cloneStrokes l = l := by
  have hp : (fun p : RawPoint => (⟨p.x, p.y, p.z, p.a⟩ : RawPoint)) = id := by
    funext p; cases p; rfl
  have hs : (fun s : Stroke => (⟨s.points.map (fun p => ⟨p.x, p.y, p.z, p.a⟩)⟩ : Stroke)) = id := by
    funext s; cases s; simp [hp]
  simp [cloneStrokes, hs]

theorem solveLoopFuel_perm (useBias : Bool) (fuel : ℕ) :
    ∀ (pool : List StrokeMeta) (curr : StrokeMeta), pool.length ≤ fuel →
      ∃ l, l.Perm (pool.map (·.stroke)) ∧
        List.Forall₂ SameUpToRev (solveLoopFuel useBias fuel curr pool) l := by
  induction fuel with
  | zero =>
    intro pool curr hle
    have hpool : pool = [] := List.length_eq_zero.mp (Nat.le_zero.mp hle)
    subst hpool
    exact ⟨[], by simp, by simp only [solveLoopFuel]; exact List.Forall₂.nil⟩
  | succ fuel ih =>
    intro pool curr hle
    cases hsel : selectBest useBias curr pool with
    | none =>
      have hpool : pool = [] := by
        cases pool with
        | nil => rfl
        | cons a t =>
          have hs := selectBest_isSome useBias curr a t
          rw [hsel] at hs
          cases hs
      subst hpool
      refine ⟨[], by simp, ?_⟩
      simp only [solveLoopFuel, hsel]
      exact List.Forall₂.nil
    | some trip =>
      obtain ⟨bestIdx, c, reverseBest⟩ := trip
      have hlt := selectBest_idx_lt useBias curr pool _ _ _ hsel
      have hle' : (pool.eraseIdx bestIdx).length ≤ fuel := by
        simp only [List.length_eraseIdx, if_pos hlt]
        omega
      obtain ⟨l', hperm', hf'⟩ := ih (pool.eraseIdx bestIdx)
        (if reverseBest then reverseMeta (pool.getD bestIdx default)
         else pool.getD bestIdx default) hle'
      refine ⟨(pool.getD bestIdx default).stroke :: l', ?_, ?_⟩
      · have h1 : (pool.map (·.stroke)).Perm
            ((pool.getD bestIdx default).stroke ::
              (pool.eraseIdx bestIdx).map (·.stroke)) := by
          rw [List.getD_eq_getElem pool default hlt]
          have := (perm_getElem_cons_eraseIdx pool bestIdx hlt).map (·.stroke)
          simpa using this
        exact ((hperm'.cons _).trans h1.symm)
      · simp only [solveLoopFuel, hsel]
        refine List.Forall₂.cons ?_ hf'
        cases reverseBest with
        | false => exact Or.inl rfl
        | true => exact Or.inr (by simp [reverseMeta])

theorem solveLoop_perm (useBias : Bool) (pool : List StrokeMeta) (curr : StrokeMeta) :
    ∃ l, l.Perm (pool.map (·.stroke)) ∧
         List.Forall₂ SameUpToRev (solveLoop useBias curr pool) l :=
  solveLoopFuel_perm useBias pool.length pool curr le_rfl

theorem solveOrder_perm (inputStrokes : List Stroke) (useBias : Bool) :
    ∃ l, l.Perm inputStrokes ∧
         List.Forall₂ SameUpToRev (solveOrder inputStrokes useBias) l := by
  have hstroke : ∀ s : Stroke, (getMeta s).stroke = s := fun _ => rfl
  have hsorted : ((inputStrokes.map getMeta).mergeSort
      (fun a b => a.minX ≤ b.minX)).Perm (inputStrokes.map getMeta) :=
    List.mergeSort_perm _ _
  rw [solveOrder]
  split
  · rename_i hnil
    rw [hnil] at hsorted
    have := hsorted.symm.eq_nil
    have hinp : inputStrokes = [] := by
      cases inputStrokes with
      | nil => rfl
      | cons a t => simp at this
    exact ⟨[], by rw [hinp], List.Forall₂.nil⟩
  · rename_i first pool heq
    obtain ⟨l', hperm', hf'⟩ := solveLoop_perm useBias pool
      (if first.endPt.x < first.startPt.x ∧ first.width > first.height then
          reverseMeta first else first)
    refine ⟨first.stroke :: l', ?_, ?_⟩
    · have h1 : ((first :: pool).map (·.stroke)).Perm inputStrokes := by
        have h2 := hsorted.map (·.stroke)
        rw [heq, List.map_map] at h2
        simpa [show ((fun x : StrokeMeta => x.stroke) ∘ getMeta) = id from
          funext fun s => rfl] using h2
      exact (hperm'.cons _).trans h1
    · refine List.Forall₂.cons ?_ hf'
      split
      · exact Or.inr (by simp [reverseMeta])
      · exact Or.inl rfl

/-- C10: the stroke order solver's output is a permutation with
per-stroke direction of its input: there is a list `l`, a permutation of
the main (non-decoration) strokes, such that the emitted main part
matches `l` element-by-element up to exact reversal, and the decoration
strokes follow in their original relative order.  The hypothesis rules
out empty point lists, on which the JS source would throw. -/
theorem strokeOrder_output_permutation (strokes : List Stroke)
    (h : ∀ s ∈ strokes, s.points ≠ []) :
    ∃ mainPart l,
      optimizeStrokeOrder strokes = mainPart ++ underlineStrokesOf strokes ∧
      l.Perm (mainStrokesOf strokes) ∧
      List.Forall₂ SameUpToRev mainPart l := by
  rw [optimizeStrokeOrder]
  split
  · rename_i hlen
    have hnil : strokes = [] := List.length_eq_zero.mp hlen
    subst hnil
    exact ⟨[], [], by simp [underlineStrokesOf], by simp [mainStrokesOf], List.Forall₂.nil⟩
  · rw [cloneStrokes_id, cloneStrokes_id]
    by_cases hc : getScore (solveOrder (mainStrokesOf strokes) true) <
        getScore (solveOrder (mainStrokesOf strokes) false) * (13/10 : ℝ)
    · obtain ⟨l, hp, hf⟩ := solveOrder_perm (mainStrokesOf strokes) true
      exact ⟨_, l, by rw [if_pos hc], hp, hf⟩
    · obtain ⟨l, hp, hf⟩ := solveOrder_perm (mainStrokesOf strokes) false
      exact ⟨_, l, by rw [if_neg hc], hp, hf⟩

/-- Witness input for the solver claims: three single-point strokes at
(0,0), (3,4) and (6,0) — all pairwise distances are integers (5, 5, 6),
and none qualifies as a decoration. -/
def exTriple : List Stroke :=
  [⟨[⟨0, 0, none, none⟩]⟩, ⟨[⟨3, 4, none, none⟩]⟩, ⟨[⟨6, 0, none, none⟩]⟩]

/-- Witness for `strokeOrder_output_permutation` at a concrete input. -/
theorem strokeOrder_output_permutation_witness :
    (∀ s ∈ exTriple, s.points ≠ []) ∧
    (∃ mainPart l,
      optimizeStrokeOrder exTriple = mainPart ++ underlineStrokesOf exTriple ∧
      l.Perm (mainStrokesOf exTriple) ∧
      List.Forall₂ SameUpToRev mainPart l) :=
  ⟨by decide, strokeOrder_output_permutation exTriple (by decide)⟩

/-! ### The solver's hypothesis-selection rule (claim C1) -/

theorem optimizeStrokeOrder_eq (strokes : List Stroke) :
    optimizeStrokeOrder strokes =
      (if getScore (solveOrder (mainStrokesOf strokes) true) <
          getScore (solveOrder (mainStrokesOf strokes) false) * (13/10 : ℝ)
       then solveOrder (mainStrokesOf strokes) true
       else solveOrder (mainStrokesOf strokes) false) ++ underlineStrokesOf strokes := by
  rw [optimizeStrokeOrder]
  split
  · rename_i hlen
    have hnil : strokes = [] := List.length_eq_zero.mp hlen
    subst hnil
    simp [mainStrokesOf, underlineStrokesOf, solveOrder, cloneStrokes]
  · rw [cloneStrokes_id, cloneStrokes_id]

/-- C1 (amended): the solver evaluates the neutral and biased variants on
deep copies of the main strokes (deep copying is the identity on values)
and returns the biased sequence whenever its score is strictly below
1.3× the neutral score — even when the biased sequence scores higher
than the neutral one — and the neutral sequence otherwise, followed by
the decoration strokes. -/
theorem strokeOrder_selection_rule (strokes : List Stroke) :
    optimizeStrokeOrder strokes =
      (if getScore (solveOrder (mainStrokesOf strokes) true) <
          getScore (solveOrder (mainStrokesOf strokes) false) * (13/10 : ℝ)
       then solveOrder (mainStrokesOf strokes) true
       else solveOrder (mainStrokesOf strokes) false) ++ underlineStrokesOf strokes
    ∧ cloneStrokes strokes = strokes :=
  ⟨optimizeStrokeOrder_eq strokes, cloneStrokes_id strokes⟩

/-- The metadata of a single-point stroke. -/
def singletonMeta (p : RawPoint) : StrokeMeta :=
  ⟨⟨[p]⟩, (p.x : ℚ), (p.y : ℚ), p.x, p.x, p.y, p.y, 0, 0, p, p⟩

theorem getMeta_singleton (p : RawPoint) : getMeta ⟨[p]⟩ = singletonMeta p := by
  simp [getMeta, singletonMeta, List.min?, List.max?, List.headI, List.getLastD]

theorem solveLoopFuel_succ (useBias : Bool) (fuel : ℕ) (curr : StrokeMeta)
    (pool : List StrokeMeta) :
    solveLoopFuel useBias (fuel + 1) curr pool =
      match selectBest useBias curr pool with
      | none => []
      | some (bestIdx, _, reverseBest) =>
          (if reverseBest then reverseMeta (pool.getD bestIdx default)
           else pool.getD bestIdx default).stroke ::
            solveLoopFuel useBias fuel
              (if reverseBest then reverseMeta (pool.getD bestIdx default)
               else pool.getD bestIdx default) (pool.eraseIdx bestIdx) := rfl

/-- The three points of the counterexample input. -/
def pA : RawPoint := ⟨0, 0, none, none⟩

def pB : RawPoint := ⟨3, 4, none, none⟩

def pC : RawPoint := ⟨6, 0, none, none⟩

theorem exTriple_eq : exTriple = [⟨[pA]⟩, ⟨[pB]⟩, ⟨[pC]⟩] := rfl

theorem exTriple_selectBest_neutral_1 :
    selectBest false (singletonMeta pA) [singletonMeta pB, singletonMeta pC] =
      some (0, 25, false) := by
  norm_num [selectBest, selectAux, candCosts, updBest, distSq, singletonMeta, pA, pB, pC]

theorem exTriple_selectBest_neutral_2 :
    selectBest false (singletonMeta pB) [singletonMeta pC] = some (0, 25, false) := by
  norm_num [selectBest, selectAux, candCosts, updBest, distSq, singletonMeta, pB, pC]

theorem exTriple_selectBest_biased_1 :
    selectBest true (singletonMeta pA) [singletonMeta pB, singletonMeta pC] =
      some (1, 36, false) := by
  norm_num [selectBest, selectAux, candCosts, updBest, distSq, singletonMeta, pA, pB, pC]

theorem exTriple_selectBest_biased_2 :
    selectBest true (singletonMeta pC) [singletonMeta pB] = some (0, 45, false) := by
  norm_num [selectBest, selectAux, candCosts, updBest, distSq, singletonMeta, pB, pC]

theorem solveOrder_cons (inputStrokes : List Stroke) (useBias : Bool)
    (first : StrokeMeta) (pool : List StrokeMeta)
    (h : (inputStrokes.map getMeta).mergeSort (fun a b => a.minX ≤ b.minX) =
      first :: pool) :
    solveOrder inputStrokes useBias =
      (if first.endPt.x < first.startPt.x ∧ first.width > first.height
       then reverseMeta first else first).stroke ::
      solveLoop useBias
        (if first.endPt.x < first.startPt.x ∧ first.width > first.height
         then reverseMeta first else first) pool := by
  unfold solveOrder
  rw [h]

theorem exTriple_map_sorted :
    (exTriple.map getMeta).mergeSort (fun a b => a.minX ≤ b.minX) =
      [singletonMeta pA, singletonMeta pB, singletonMeta pC] := by
  have hmap : exTriple.map getMeta =
      [singletonMeta pA, singletonMeta pB, singletonMeta pC] := by
    simp [exTriple_eq, getMeta_singleton]
  rw [hmap]
  exact List.mergeSort_of_sorted (by decide)

theorem solveOrder_exTriple_neutral :
    solveOrder exTriple false = [⟨[pA]⟩, ⟨[pB]⟩, ⟨[pC]⟩] := by
  rw [solveOrder_cons exTriple false _ _ exTriple_map_sorted]
  rw [if_neg (by decide : ¬ ((singletonMeta pA).endPt.x < (singletonMeta pA).startPt.x ∧
      (singletonMeta pA).width > (singletonMeta pA).height))]
  rw [show solveLoop false (singletonMeta pA) [singletonMeta pB, singletonMeta pC] =
      solveLoopFuel false (0 + 1 + 1) (singletonMeta pA)
        [singletonMeta pB, singletonMeta pC] from rfl]
  rw [solveLoopFuel_succ, exTriple_selectBest_neutral_1]
  simp only [List.getD_cons_zero, List.eraseIdx_cons_zero, Bool.false_eq_true, if_false]
  rw [solveLoopFuel_succ, exTriple_selectBest_neutral_2]
  simp [solveLoopFuel, singletonMeta]

theorem solveOrder_exTriple_biased :
    solveOrder exTriple true = [⟨[pA]⟩, ⟨[pC]⟩, ⟨[pB]⟩] := by
  rw [solveOrder_cons exTriple true _ _ exTriple_map_sorted]
  rw [if_neg (by decide : ¬ ((singletonMeta pA).endPt.x < (singletonMeta pA).startPt.x ∧
      (singletonMeta pA).width > (singletonMeta pA).height))]
  rw [show solveLoop true (singletonMeta pA) [singletonMeta pB, singletonMeta pC] =
      solveLoopFuel true (0 + 1 + 1) (singletonMeta pA)
        [singletonMeta pB, singletonMeta pC] from rfl]
  rw [solveLoopFuel_succ, exTriple_selectBest_biased_1]
  simp only [List.getD_cons_succ, List.getD_cons_zero, List.eraseIdx_cons_succ,
    List.eraseIdx_cons_zero, List.eraseIdx_nil, Bool.false_eq_true, if_false]
  rw [solveLoopFuel_succ, exTriple_selectBest_biased_2]
  simp [solveLoopFuel, singletonMeta]

theorem exTriple_flag_A : underlineFlag exTriple ⟨[pA]⟩ = false := by
  simp only [underlineFlag, exTriple_eq, getMeta_singleton, decide_eq_false_iff_not]
  norm_num [singletonMeta, pA, pB, pC, List.min?, List.max?]

theorem exTriple_flag_B : underlineFlag exTriple ⟨[pB]⟩ = false := by
  simp only [underlineFlag, exTriple_eq, getMeta_singleton, decide_eq_false_iff_not]
  norm_num [singletonMeta, pA, pB, pC, List.min?, List.max?]

theorem exTriple_flag_C : underlineFlag exTriple ⟨[pC]⟩ = false := by
  simp only [underlineFlag, exTriple_eq, getMeta_singleton, decide_eq_false_iff_not]
  norm_num [singletonMeta, pA, pB, pC, List.min?, List.max?]

theorem exTriple_mains : mainStrokesOf exTriple = exTriple := by
  rw [mainStrokesOf, exTriple_eq]
  simp [List.filter, exTriple_eq ▸ exTriple_flag_A, exTriple_eq ▸ exTriple_flag_B,
    exTriple_eq ▸ exTriple_flag_C]

theorem exTriple_unders : underlineStrokesOf exTriple = [] := by
  rw [underlineStrokesOf, exTriple_eq]
  simp [List.filter, exTriple_eq ▸ exTriple_flag_A, exTriple_eq ▸ exTriple_flag_B,
    exTriple_eq ▸ exTriple_flag_C]

theorem getScore_exTriple_neutral : getScore (solveOrder exTriple false) = 10 := by
  have sqrt25 : Real.sqrt 25 = 5 := by
    rw [show ((25 : ℝ)) = 5 ^ 2 by norm_num]
    exact Real.sqrt_sq (by norm_num)
  rw [solveOrder_exTriple_neutral]
  simp only [getScore]
  norm_num [distSq, pA, pB, pC, List.getLastD, List.headI, sqrt25]

theorem getScore_exTriple_biased : getScore (solveOrder exTriple true) = 11 := by
  have sqrt25 : Real.sqrt 25 = 5 := by
    rw [show ((25 : ℝ)) = 5 ^ 2 by norm_num]
    exact Real.sqrt_sq (by norm_num)
  have sqrt36 : Real.sqrt 36 = 6 := by
    rw [show ((36 : ℝ)) = 6 ^ 2 by norm_num]
    exact Real.sqrt_sq (by norm_num)
  rw [solveOrder_exTriple_biased]
  simp only [getScore]
  norm_num [distSq, pA, pB, pC, List.getLastD, List.headI, sqrt25, sqrt36]

/-- C1 counterexample: on `exTriple` the neutral variant scores 10, the
biased variant 11; the biased score does not exceed 1.3× the neutral one
(11 ≤ 13), so the claim's exception does not apply and the claim demands
the lower-scoring (neutral) sequence — yet the code returns the biased,
higher-scoring sequence, a different stroke order. -/
theorem strokeOrder_not_min_score :
    getScore (solveOrder exTriple false) < getScore (solveOrder exTriple true) ∧
    ¬ (getScore (solveOrder exTriple true) >
        getScore (solveOrder exTriple false) * (13/10 : ℝ)) ∧
    optimizeStrokeOrder exTriple = solveOrder exTriple true ∧
    solveOrder exTriple true ≠ solveOrder exTriple false := by
  have hs1 := getScore_exTriple_neutral
  have hs2 := getScore_exTriple_biased
  have hopt : optimizeStrokeOrder exTriple = solveOrder exTriple true := by
    rw [optimizeStrokeOrder_eq, exTriple_mains, exTriple_unders, hs1, hs2,
      if_pos (by norm_num)]
    simp
  refine ⟨by rw [hs1, hs2]; norm_num, by rw [hs1, hs2]; norm_num, hopt, ?_⟩
  rw [solveOrder_exTriple_neutral, solveOrder_exTriple_biased]
  decide

/-! ### Motion planner (`motionPlanner.ts`)

JavaScript `undefined`/`NaN` values are modelled as `none : Option ℝ`:
`undefined` arises from reading a missing style field, multiplying it
produces `NaN`, `Math.max` propagates `NaN`, and every `<`/`>`
comparison against `NaN`/`undefined` is false.  Inputs (stroke
coordinates, canvas size) are genuine numbers, so positions enter as
`some` values and can only become `none` through tremor displacement at
a `NaN` timestamp. -/

/-- `NaN`-propagating addition. -/
def jadd : Option ℝ → Option ℝ → Option ℝ
  | some a, some b => some (a + b)
  | _, _ => none

/-- `Math.max c ·` — `NaN` propagates (JS `Math.max` returns `NaN` if
any argument is `NaN`). -/
def jmaxC (c : ℝ) : Option ℝ → Option ℝ
  | some a => some (max c a)
  | none => none

/-- JS `≤` on possibly-`NaN` numbers: false whenever either side is
`NaN`/`undefined`. -/
def jle : Option ℝ → Option ℝ → Prop
  | some x, some y => x ≤ y
  | _, none => False
  | none, _ => False

/-- The style fields read by the planner (`HandwritingStyle` in
`types.ts`; the remaining fields — label, easing, pressure curve, ink
spread, slant, overshoot, connection smoothing, speed multiplier — are
never read by `generateMotionPlan` and are omitted).  Each field is
`Option` because a runtime style object may lack the property even
though the TS interface declares it. -/
structure HandwritingStyle where
  base_ms_per_px : Option ℝ
  pressure_scale : Option ℝ
  inertia_factor : Option ℝ
  micro_tremor_amp_px : Option ℝ
  micro_tremor_freq_hz : Option ℝ

/-- The planner's resolved physics constants (lines 48–56 of
`motionPlanner.ts`). -/
structure PlanConfig where
  baseMs : Option ℝ
  widthScale : ℝ
  inertia : ℝ
  tremorAmp : ℝ
  tremorFreq : ℝ

/-- Constant resolution: with no style, fixed defaults; with a style,
`base_ms_per_px` is read without any fallback (a missing field stays
`undefined`), `pressure_scale || 1` falls back on `undefined` and `0`
(both falsy), and the inertia/tremor fields are only ever used under
`> 0` guards, for which a missing field behaves exactly like `0`. -/
noncomputable def resolveConfig : Option HandwritingStyle → PlanConfig
  | none => ⟨some (12/10), 1, 0, 0, 0⟩
  | some stl =>
      ⟨stl.base_ms_per_px,
       match stl.pressure_scale with
       | some v => if v = 0 then 1 else v
       | none => 1,
       stl.inertia_factor.getD 0,
       stl.micro_tremor_amp_px.getD 0,
       stl.micro_tremor_freq_hz.getD 0⟩

/-- A stroke point mapped to canvas pixels (the result of step 1 of the
per-stroke loop); `z`/`a` are carried through unchanged. -/
structure MPoint where
  x : ℝ
  y : ℝ
  z : Option ℚ
  a : Option ℚ

instance : Inhabited MPoint := ⟨⟨0, 0, none, none⟩⟩

/-- `dist` in `motionPlanner.ts`. -/
noncomputable def dist (p1 p2 : MPoint) : ℝ :=
  Real.sqrt ((p1.x - p2.x) * (p1.x - p2.x) + (p1.y - p2.y) * (p1.y - p2.y))

/-- Interior loop of `filterRedundantPoints`: `prev` is the last point
kept so far (`result[result.length - 1]`). -/
noncomputable def filterRedundantAux (prev : MPoint) : List MPoint → List MPoint
  | [] => []
  | curr :: rest =>
      if (curr.x - prev.x) ^ 2 + (curr.y - prev.y) ^ 2 > (1/10 : ℝ) then
        curr :: filterRedundantAux curr rest
      else filterRedundantAux prev rest

/-- `filterRedundantPoints`: drop consecutive mapped points closer than
0.1 px² to the last kept point, then re-append the source's final point
when its coordinates were dropped. -/
noncomputable def filterRedundantPoints (points : List MPoint) : List MPoint :=
  if points.length < 2 then points
  else
    match points with
    | [] => []
    | p0 :: rest =>
        let result := p0 :: filterRedundantAux p0 rest
        let lastSrc := points.getLastD p0
        let lastRes := result.getLastD p0
        if lastRes.x ≠ lastSrc.x ∨ lastRes.y ≠ lastSrc.y then result ++ [lastSrc]
        else result

/-- A timed trajectory point (`PhysicsPoint` in `types.ts`). -/
structure PhysicsPoint where
  x : Option ℝ
  y : Option ℝ
  time : Option ℝ
  lineWidth : ℝ
  opacity : ℚ

/-- One timed stroke (`StrokePath` in `types.ts`). -/
structure StrokePath where
  id : String
  points : List PhysicsPoint
  startTime : Option ℝ
  endTime : Option ℝ

instance : Inhabited PhysicsPoint := ⟨⟨none, none, none, 0, 1⟩⟩

instance : Inhabited StrokePath := ⟨⟨"", [], none, none⟩⟩

/-- The turning-angle speed penalty (lines 126–144): active only from
the third point on (`i > 1`) and when the inertia factor is positive. -/
noncomputable def speedPenalty (cfg : PlanConfig) (prevPrev : Option MPoint)
    (prev p : MPoint) : ℝ :=
  match prevPrev with
  | none => 1
  | some pp =>
      if 0 < cfg.inertia then
        let v1x := prev.x - pp.x
        let v1y := prev.y - pp.y
        let v2x := p.x - prev.x
        let v2y := p.y - prev.y
        let mag1 := Real.sqrt (v1x * v1x + v1y * v1y)
        let mag2 := Real.sqrt (v2x * v2x + v2y * v2y)
        if mag1 > 1/1000 ∧ mag2 > 1/1000 then
          let cosTheta := max (-1) (min 1 ((v1x * v2x + v1y * v2y) / (mag1 * mag2)))
          1 + Real.arccos cosTheta * cfg.inertia
        else 1
      else 1

/-- Tremor displacement in x at a (possibly `NaN`) timestamp. -/
noncomputable def tremorX (cfg : PlanConfig) (t : Option ℝ) : Option ℝ :=
  if cfg.tremorAmp > 0 ∧ cfg.tremorFreq > 0 then
    t.map (fun tv => cfg.tremorAmp * Real.sin (tv / 1000 * cfg.tremorFreq * Real.pi * 2))
  else some 0

/-- Tremor displacement in y. -/
noncomputable def tremorY (cfg : PlanConfig) (t : Option ℝ) : Option ℝ :=
  if cfg.tremorAmp > 0 ∧ cfg.tremorFreq > 0 then
    t.map (fun tv => cfg.tremorAmp * Real.cos (tv / 1000 * cfg.tremorFreq * Real.pi * 2))
  else some 0

/-- Per-point line width: traced thickness scaled to pixels times the
pressure scale, or the fallback width `1.5 × scale`. -/
noncomputable def pointWidth (cfg : PlanConfig) (canvasWidth : ℝ) (z : Option ℚ) : ℝ :=
  match z with
  | some zv => ((zv : ℝ) / 10000) * canvasWidth * cfg.widthScale
  | none => 3/2 * cfg.widthScale

/-- Assemble one emitted physics point at timestamp `t`. -/
noncomputable def physPoint (cfg : PlanConfig) (canvasWidth : ℝ) (p : MPoint)
    (t : Option ℝ) : PhysicsPoint :=
  { x := jadd (some p.x) (tremorX cfg t)
    y := jadd (some p.y) (tremorY cfg t)
    time := t
    lineWidth := pointWidth cfg canvasWidth p.z
    opacity := p.a.getD 1 }

/-- The traversal loop from the second processed point on: each segment
advances the clock by `max(0.01, d × base_ms_per_px × speedPenalty)`
(`NaN` when the base is `undefined`). -/
noncomputable def strokePhysicsAux (cfg : PlanConfig) (canvasWidth : ℝ) :
    Option MPoint → MPoint → Option ℝ → List MPoint → List PhysicsPoint × Option ℝ
  | _, _, t, [] => ([], t)
  | prevPrev, prev, t, p :: rest =>
      let sp := speedPenalty cfg prevPrev prev p
      let d := dist p prev
      let dt := jmaxC (1/100) (cfg.baseMs.map (fun b => d * b * sp))
      let t' := jadd t dt
      let out := strokePhysicsAux cfg canvasWidth (some prev) p t' rest
      (physPoint cfg canvasWidth p t' :: out.1, out.2)

/-- The whole traversal of one stroke's processed points, starting the
clock at `t0`; returns the emitted points and the final clock. -/
noncomputable def strokePhysics (cfg : PlanConfig) (canvasWidth : ℝ) (t0 : Option ℝ) :
    List MPoint → List PhysicsPoint × Option ℝ
  | [] => ([], t0)
  | p :: rest =>
      let out := strokePhysicsAux cfg canvasWidth none p t0 rest
      (physPoint cfg canvasWidth p t0 :: out.1, out.2)

/-- Coordinate mapping of one stroke onto the canvas (step 1). -/
noncomputable def mapStrokePoints (canvasWidth canvasHeight : ℝ) (s : Stroke) : List MPoint :=
  s.points.map (fun p =>
    ⟨((p.x : ℝ) / 10000) * canvasWidth, ((p.y : ℝ) / 10000) * canvasHeight, p.z, p.a⟩)

/-- The planner's running state across strokes. -/
structure PlanState where
  paths : List StrokePath
  currentTime : Option ℝ
  prevEndPos : Option MPoint

/-- The pen-lift rule (lines 76–83): when a previous stroke exists and
the distance from its last processed point to this stroke's first
processed point exceeds 30 px, advance the clock by
`min(0.5 × distance, 250) + 50` ms; otherwise leave the clock alone. -/
noncomputable def liftedTime (st : PlanState) (processedPoints : List MPoint) :
    Option ℝ :=
  match st.prevEndPos with
  | none => st.currentTime
  | some q =>
      if dist (processedPoints.headI) q > 30 then
        jadd st.currentTime (some (min (dist (processedPoints.headI) q * (1/2)) 250 + 50))
      else st.currentTime

/-- Processing of one (index, stroke) pair inside the `forEach` loop:
skip strokes with fewer than 2 raw points, map and filter the points,
add the pen-lift time, traverse, and emit one `StrokePath`. -/
noncomputable def planStep (cfg : PlanConfig) (canvasWidth canvasHeight : ℝ)
    (st : PlanState) (idxStroke : ℕ × Stroke) : PlanState :=
  if idxStroke.2.points.length < 2 then st
  else
    { paths := st.paths ++
        [⟨"stroke-" ++ toString idxStroke.1,
          (strokePhysics cfg canvasWidth
            (liftedTime st (filterRedundantPoints
              (mapStrokePoints canvasWidth canvasHeight idxStroke.2)))
            (filterRedundantPoints
              (mapStrokePoints canvasWidth canvasHeight idxStroke.2))).1,
          liftedTime st (filterRedundantPoints
            (mapStrokePoints canvasWidth canvasHeight idxStroke.2)),
          (strokePhysics cfg canvasWidth
            (liftedTime st (filterRedundantPoints
              (mapStrokePoints canvasWidth canvasHeight idxStroke.2)))
            (filterRedundantPoints
              (mapStrokePoints canvasWidth canvasHeight idxStroke.2))).2⟩],
      currentTime := (strokePhysics cfg canvasWidth
          (liftedTime st (filterRedundantPoints
            (mapStrokePoints canvasWidth canvasHeight idxStroke.2)))
          (filterRedundantPoints
            (mapStrokePoints canvasWidth canvasHeight idxStroke.2))).2,
      prevEndPos := some ((filterRedundantPoints
        (mapStrokePoints canvasWidth canvasHeight idxStroke.2)).getLastD default) }

/-- The analysis record consumed by the planner (`SignatureAnalysis` in
`types.ts`; the free-text `metadata.notes` provenance string is not
machine-read and is omitted). -/
structure SignatureAnalysis where
  strokes : List Stroke
  original_size : ℕ × ℕ

/-- `generateMotionPlan`: resolve the style constants and fold the
per-stroke step over the strokes in writing order, starting the global
clock at 0. -/
noncomputable def generateMotionPlan (data : SignatureAnalysis)
    (canvasWidth canvasHeight : ℝ) (style : Option HandwritingStyle) :
    List StrokePath :=
  (data.strokes.enum.foldl (planStep (resolveConfig style) canvasWidth canvasHeight)
    ⟨[], some 0, none⟩).paths

/-! ### Timing lemmas for the motion planner -/

theorem headI_mem {α : Type _} [Inhabited α] (l : List α) (h : l ≠ []) : l.headI ∈ l := by
  cases l with
  | nil => exact absurd rfl h
  | cons a t => simp [List.headI]

theorem getLastD_mem {α : Type _} (l : List α) (d : α) (h : l ≠ []) : l.getLastD d ∈ l := by
  induction l with
  | nil => exact absurd rfl h
  | cons a t ih =>
    cases t with
    | nil => simp [List.getLastD]
    | cons b t' =>
      have := ih (by simp)
      simp only [List.getLastD] at this ⊢
      exact List.mem_cons_of_mem a this

theorem strokePhysicsAux_times (cfg : PlanConfig) (canvasWidth b : ℝ)
    (hb : cfg.baseMs = some b) (l : List MPoint) :
    ∀ (prevPrev : Option MPoint) (prev : MPoint) (x : ℝ),
      ∃ y, (strokePhysicsAux cfg canvasWidth prevPrev prev (some x) l).2 = some y ∧
        x ≤ y ∧
        ((strokePhysicsAux cfg canvasWidth prevPrev prev (some x) l).1 = [] → y = x) ∧
        (∀ p ∈ (strokePhysicsAux cfg canvasWidth prevPrev prev (some x) l).1,
          ∃ xt, p.time = some xt) ∧
        (∀ ph ∈ ((strokePhysicsAux cfg canvasWidth prevPrev prev (some x) l).1).head?,
          ∃ fx, ph.time = some fx ∧ x ≤ fx) ∧
        (∀ lp ∈ ((strokePhysicsAux cfg canvasWidth prevPrev prev (some x) l).1).getLast?,
          lp.time = some y) ∧
        List.Chain' (fun p q => jle p.time q.time)
          (strokePhysicsAux cfg canvasWidth prevPrev prev (some x) l).1 := by
  induction l with
  | nil =>
    intro prevPrev prev x
    exact ⟨x, rfl, le_rfl, fun _ => rfl, by simp [strokePhysicsAux], by simp [strokePhysicsAux],
      by simp [strokePhysicsAux], by simp [strokePhysicsAux]⟩
  | cons p rest ih =>
    intro prevPrev prev x
    have hdt : (strokePhysicsAux cfg canvasWidth prevPrev prev (some x) (p :: rest)) =
        (physPoint cfg canvasWidth p
            (some (x + max (1/100) (dist p prev * b * speedPenalty cfg prevPrev prev p))) ::
          (strokePhysicsAux cfg canvasWidth (some prev) p
            (some (x + max (1/100) (dist p prev * b * speedPenalty cfg prevPrev prev p)))
            rest).1,
         (strokePhysicsAux cfg canvasWidth (some prev) p
            (some (x + max (1/100) (dist p prev * b * speedPenalty cfg prevPrev prev p)))
            rest).2) := by
      simp only [strokePhysicsAux, hb]
      rfl
    set dtv := max (1/100) (dist p prev * b * speedPenalty cfg prevPrev prev p) with hdtv
    have hdtpos : (0 : ℝ) < dtv := lt_of_lt_of_le (by norm_num) (le_max_left _ _)
    obtain ⟨y, hy, hxy, hnil, hall, hhead, hlast, hchain⟩ := ih (some prev) p (x + dtv)
    refine ⟨y, ?_, ?_, ?_, ?_, ?_, ?_, ?_⟩
    · rw [hdt]; exact hy
    · linarith
    · rw [hdt]; intro h; cases h
    · rw [hdt]
      intro q hq
      rcases List.mem_cons.mp hq with hq | hq
      · exact ⟨x + dtv, by rw [hq]; rfl⟩
      · exact hall q hq
    · rw [hdt]
      intro ph hph
      simp only [List.head?_cons, Option.mem_some_iff] at hph
      exact ⟨x + dtv, by rw [← hph]; exact ⟨rfl, by linarith⟩⟩
    · rw [hdt]
      intro lp hlp
      cases hrest : (strokePhysicsAux cfg canvasWidth (some prev) p (some (x + dtv)) rest).1 with
      | nil =>
        rw [hrest] at hlp
        simp only [List.getLast?_singleton, Option.mem_some_iff] at hlp
        have hyx : y = x + dtv := hnil hrest
        rw [← hlp, hyx]
        rfl
      | cons a t =>
        rw [hrest] at hlp
        rw [List.getLast?_cons_cons] at hlp
        apply hlast
        rw [hrest]
        cases t with
        | nil => exact hlp
        | cons c cs => exact hlp
    · rw [hdt]
      rw [List.chain'_cons']
      refine ⟨?_, hchain⟩
      intro q hq
      obtain ⟨fx, hfx, hxfx⟩ := hhead q hq
      simp only [physPoint, jle, hfx]
      exact hxfx

theorem strokePhysics_times (cfg : PlanConfig) (canvasWidth b : ℝ)
    (hb : cfg.baseMs = some b) (l : List MPoint) (hl : l ≠ []) (x : ℝ) :
    ∃ y, (strokePhysics cfg canvasWidth (some x) l).2 = some y ∧ x ≤ y ∧
      (strokePhysics cfg canvasWidth (some x) l).1 ≠ [] ∧
      ((strokePhysics cfg canvasWidth (some x) l).1.headI).time = some x ∧
      (∀ p ∈ (strokePhysics cfg canvasWidth (some x) l).1, ∃ xt, p.time = some xt) ∧
      ((strokePhysics cfg canvasWidth (some x) l).1.getLastD default).time = some y ∧
      List.Chain' (fun p q => jle p.time q.time)
        (strokePhysics cfg canvasWidth (some x) l).1 := by
  cases l with
  | nil => exact absurd rfl hl
  | cons p rest =>
    obtain ⟨y, hy, hxy, hnil, hall, hhead, hlast, hchain⟩ :=
      strokePhysicsAux_times cfg canvasWidth b hb rest none p x
    refine ⟨y, hy, hxy, by simp [strokePhysics], ?_, ?_, ?_, ?_⟩
    · simp [strokePhysics, physPoint]
    · intro q hq
      simp only [strokePhysics, List.mem_cons] at hq
      rcases hq with hq | hq
      · exact ⟨x, by rw [hq]; rfl⟩
      · exact hall q hq
    · simp only [strokePhysics]
      cases hrest : (strokePhysicsAux cfg canvasWidth none p (some x) rest).1 with
      | nil =>
        have hyx : y = x := hnil hrest
        simp [List.getLastD, physPoint, hyx]
      | cons a t =>
        have hne2 : (a :: t) ≠ [] := by simp
        obtain ⟨z, hz⟩ := Option.isSome_iff_exists.mp (List.getLast?_isSome.mpr hne2)
        have hmem : z ∈ (strokePhysicsAux cfg canvasWidth none p (some x) rest).1.getLast? := by
          rw [hrest, hz]; rfl
        have hzt := hlast z hmem
        rw [List.getLastD_eq_getLast?, List.getLast?_cons_cons, hz, Option.getD_some, hzt]
    · simp only [strokePhysics]
      rw [List.chain'_cons']
      refine ⟨?_, hchain⟩
      intro q hq
      obtain ⟨fx, hfx, hxfx⟩ := hhead q hq
      simp only [physPoint, jle, hfx]
      exact hxfx

theorem filterRedundantPoints_ne_nil (points : List MPoint) (h : points ≠ []) :
    filterRedundantPoints points ≠ [] := by
  rw [filterRedundantPoints.eq_def]
  split
  · exact h
  · split
    · exact h
    · dsimp only
      split
      · simp
      · simp

/-- GoodPath: the per-path invariants claimed in C3. -/
def GoodPath (path : StrokePath) : Prop :=
  path.points ≠ [] ∧
  path.startTime = (path.points.headI).time ∧
  path.endTime = (path.points.getLastD default).time ∧
  List.Chain' (fun p q => jle p.time q.time) path.points ∧
  jle path.startTime path.endTime ∧
  (∀ p ∈ path.points, ∃ xt, p.time = some xt)

/-- The planner state invariant maintained across strokes. -/
def PlanInv (st : PlanState) : Prop :=
  (∃ t, st.currentTime = some t) ∧
  (∀ path ∈ st.paths, GoodPath path) ∧
  List.Chain' (fun a b => jle a.endTime b.startTime) st.paths ∧
  (st.paths = [] ∨ (st.paths.getLastD default).endTime = st.currentTime)

theorem dist_nonneg' (p q : MPoint) : 0 ≤ dist p q := Real.sqrt_nonneg _

theorem liftedTime_some (st : PlanState) (processedPoints : List MPoint) (t : ℝ)
    (ht : st.currentTime = some t) :
    ∃ v, liftedTime st processedPoints = some v ∧ t ≤ v := by
  rw [liftedTime.eq_def]
  cases st.prevEndPos with
  | none => exact ⟨t, ht, le_rfl⟩
  | some q =>
    simp only
    split
    · refine ⟨t + (min (dist (processedPoints.headI) q * (1/2)) 250 + 50), ?_, ?_⟩
      · rw [ht]; rfl
      · have h0 : (0:ℝ) ≤ dist (processedPoints.headI) q * (1/2) := by
          have := dist_nonneg' (processedPoints.headI) q
          linarith
        have hm : (0:ℝ) ≤ min (dist (processedPoints.headI) q * (1/2)) 250 :=
          le_min h0 (by norm_num)
        linarith
    · exact ⟨t, ht, le_rfl⟩

theorem planStep_inv (cfg : PlanConfig) (canvasWidth canvasHeight b : ℝ)
    (hb : cfg.baseMs = some b) (st : PlanState) (hst : PlanInv st)
    (idxStroke : ℕ × Stroke) :
    PlanInv (planStep cfg canvasWidth canvasHeight st idxStroke) := by
  obtain ⟨⟨t, ht⟩, hgood, hchain, hlastt⟩ := hst
  rw [planStep]
  split
  · exact ⟨⟨t, ht⟩, hgood, hchain, hlastt⟩
  · rename_i hlen
    set processedPoints :=
      filterRedundantPoints (mapStrokePoints canvasWidth canvasHeight idxStroke.2)
      with hpp
    have hpne : processedPoints ≠ [] := by
      apply filterRedundantPoints_ne_nil
      simp only [mapStrokePoints, ne_eq, List.map_eq_nil_iff]
      intro hc
      rw [hc] at hlen
      simp at hlen
    obtain ⟨t1v, ht1veq, htle⟩ := liftedTime_some st processedPoints t ht
    rw [ht1veq]
    obtain ⟨y, hy, hxy, hne, hheadI, hall, hlastD, hchainP⟩ :=
      strokePhysics_times cfg canvasWidth b hb processedPoints hpne t1v
    refine ⟨⟨y, hy⟩, ?_, ?_, ?_⟩
    · intro path hpath
      rcases List.mem_append.mp hpath with hmem | hmem
      · exact hgood path hmem
      · rw [List.mem_singleton] at hmem
        subst hmem
        refine ⟨hne, hheadI.symm, hy.trans hlastD.symm, hchainP, ?_, hall⟩
        simp only [jle.eq_def, hy, hheadI]
        exact hxy
    · rw [List.chain'_append]
      refine ⟨hchain, by simp, ?_⟩
      intro a ha p hp
      simp only [List.head?_cons, Option.mem_some_iff] at hp
      subst hp
      rcases hlastt with hnil2 | hlast2
      · rw [hnil2] at ha
        simp at ha
      · have haeq : a = st.paths.getLastD default := by
          rw [List.getLastD_eq_getLast?]
          cases hq : st.paths.getLast? with
          | none => rw [hq] at ha; cases ha
          | some a' =>
            rw [hq] at ha
            simp only [Option.mem_some_iff] at ha
            rw [← ha, Option.getD_some]
        rw [haeq, hlast2, ht]
        simp only [jle]
        exact htle
    · right
      simp only [List.getLastD_eq_getLast?, List.getLast?_append, List.getLast?_singleton]
      simp

theorem foldl_planStep_inv (cfg : PlanConfig) (canvasWidth canvasHeight b : ℝ)
    (hb : cfg.baseMs = some b) (l : List (ℕ × Stroke)) :
    ∀ st : PlanState, PlanInv st →
      PlanInv (l.foldl (planStep cfg canvasWidth canvasHeight) st) := by
  induction l with
  | nil => intro st h; exact h
  | cons a rest ih =>
    intro st h
    exact ih _ (planStep_inv cfg canvasWidth canvasHeight b hb st h a)

/-! ### Claims C2, C3 and C6 about the motion planner -/

/-- C3 (amended): provided the resolved `base_ms_per_px` is an actual
number — the style is absent, or the style object carries the field —
every emitted `StrokePath` has non-empty points, timestamps that are
non-decreasing along the path, `startTime` equal to the first point's
time and `endTime` equal to the last point's time (hence
`startTime ≤ endTime`), and consecutive emitted paths satisfy
`endTimeᵢ ≤ startTimeᵢ₊₁`.  Without that hypothesis the claim fails: a
present style object lacking `base_ms_per_px` produces `NaN` timestamps
(see the counterexample). -/
theorem motion_plan_monotonic (data : SignatureAnalysis) (canvasWidth canvasHeight : ℝ)
    (style : Option HandwritingStyle)
    (hbase : style = none ∨ ∃ stl bv, style = some stl ∧ stl.base_ms_per_px = some bv) :
    (∀ path ∈ generateMotionPlan data canvasWidth canvasHeight style,
       path.points ≠ [] ∧
       path.startTime = (path.points.headI).time ∧
       path.endTime = (path.points.getLastD default).time ∧
       List.Chain' (fun p q => jle p.time q.time) path.points ∧
       jle path.startTime path.endTime) ∧
    List.Chain' (fun a b => jle a.endTime b.startTime)
      (generateMotionPlan data canvasWidth canvasHeight style) := by
  have hb : ∃ bv, (resolveConfig style).baseMs = some bv := by
    rcases hbase with rfl | ⟨stl, bv, rfl, hbv⟩
    · exact ⟨12/10, rfl⟩
    · exact ⟨bv, hbv⟩
  obtain ⟨bv, hb⟩ := hb
  have hinv := foldl_planStep_inv (resolveConfig style) canvasWidth canvasHeight bv hb
    data.strokes.enum ⟨[], some 0, none⟩
    ⟨⟨0, rfl⟩, by simp, by simp, Or.inl rfl⟩
  obtain ⟨-, hgood, hchain, -⟩ := hinv
  constructor
  · intro path hpath
    obtain ⟨h1, h2, h3, h4, h5, -⟩ := hgood path hpath
    exact ⟨h1, h2, h3, h4, h5⟩
  · exact hchain

/-- A concrete two-point stroke and analysis used in the planner
witnesses and counterexamples. -/
def exStroke : Stroke := ⟨[⟨0, 0, none, none⟩, ⟨1000, 0, none, none⟩]⟩

/-- The witness analysis: one two-point stroke. -/
def exAnalysis : SignatureAnalysis := ⟨[exStroke], (100, 100)⟩

/-- Witness for `motion_plan_monotonic` at a concrete analysis with an
absent style. -/
theorem motion_plan_monotonic_witness :
    ((none : Option HandwritingStyle) = none ∨
      ∃ stl bv, (none : Option HandwritingStyle) = some stl ∧
        stl.base_ms_per_px = some bv) ∧
    ((∀ path ∈ generateMotionPlan exAnalysis 10000 10000 none,
       path.points ≠ [] ∧
       path.startTime = (path.points.headI).time ∧
       path.endTime = (path.points.getLastD default).time ∧
       List.Chain' (fun p q => jle p.time q.time) path.points ∧
       jle path.startTime path.endTime) ∧
    List.Chain' (fun a b => jle a.endTime b.startTime)
      (generateMotionPlan exAnalysis 10000 10000 none)) :=
  ⟨Or.inl rfl, motion_plan_monotonic exAnalysis 10000 10000 none (Or.inl rfl)⟩

/-- A style object with every recognized field missing. -/
def exBadStyle : HandwritingStyle := ⟨none, none, none, none, none⟩

theorem exBad_plan_eval :
    generateMotionPlan exAnalysis 10000 10000 (some exBadStyle) =
      [⟨"stroke-" ++ toString 0,
        [⟨some 0, some 0, some 0, 3/2, 1⟩, ⟨some 1000, some 0, none, 3/2, 1⟩],
        some 0, none⟩] := by
  have hcfg : resolveConfig (some exBadStyle) = ⟨none, 1, 0, 0, 0⟩ := rfl
  have hmap : mapStrokePoints 10000 10000 exStroke =
      [⟨0, 0, none, none⟩, ⟨1000, 0, none, none⟩] := by
    simp only [mapStrokePoints, exStroke, List.map_cons, List.map_nil]
    norm_num
  have hfilter : filterRedundantPoints [(⟨0, 0, none, none⟩ : MPoint), ⟨1000, 0, none, none⟩] =
      [⟨0, 0, none, none⟩, ⟨1000, 0, none, none⟩] := by
    rw [filterRedundantPoints.eq_def]
    norm_num [filterRedundantAux, List.getLastD]
  have hphys : strokePhysics (⟨none, 1, 0, 0, 0⟩ : PlanConfig) 10000 (some 0)
      [(⟨0, 0, none, none⟩ : MPoint), ⟨1000, 0, none, none⟩] =
      ([⟨some 0, some 0, some 0, 3/2, 1⟩, ⟨some 1000, some 0, none, 3/2, 1⟩], none) := by
    simp only [strokePhysics, strokePhysicsAux, Option.map_none]
    norm_num [physPoint, tremorX, tremorY, pointWidth, jadd, jmaxC]
  rw [generateMotionPlan]
  simp only [exAnalysis, List.enum, List.enumFrom, List.foldl_cons, List.foldl_nil]
  rw [planStep, if_neg (by norm_num [exStroke]), hcfg]
  simp only [hmap, hfilter]
  rw [show liftedTime ⟨[], some 0, none⟩
      [(⟨0, 0, none, none⟩ : MPoint), ⟨1000, 0, none, none⟩] = some 0 from rfl]
  rw [hphys]
  simp

/-- C3 counterexample: with a style object present but missing
`base_ms_per_px`, the emitted path has `startTime = 0` but `NaN`
`endTime` and a `NaN` second timestamp, so the claimed ordering
`startTime ≤ endTime` (and `points[0].time ≤ points[1].time`) fails —
the claim does not hold for every style. -/
theorem motion_plan_nan_counterexample :
    ∃ path ∈ generateMotionPlan exAnalysis 10000 10000 (some exBadStyle),
      ¬ jle path.startTime path.endTime := by
  rw [exBad_plan_eval]
  refine ⟨_, List.mem_singleton_self _, ?_⟩
  simp [jle]

/-- C2 (amended): a missing `pressure_scale`, `inertia_factor`,
`micro_tremor_amp_px` or `micro_tremor_freq_hz` falls back to the fixed
defaults (width scale 1, inertia 0, tremor 0), and an absent style
yields all defaults (`base_ms_per_px = 1.2` included); under the proviso
that the style is absent or carries `base_ms_per_px`, no timestamp of
the generated plan is `NaN`/undefined.  A present style object missing
`base_ms_per_px` is NOT defaulted and does produce `NaN` timestamps
(see the counterexample), refuting the claim as stated. -/
theorem style_missing_field_defaults (data : SignatureAnalysis)
    (canvasWidth canvasHeight : ℝ) :
    resolveConfig none = ⟨some (12/10), 1, 0, 0, 0⟩ ∧
    (∀ stl : HandwritingStyle, stl.pressure_scale = none →
      (resolveConfig (some stl)).widthScale = 1) ∧
    (∀ stl : HandwritingStyle, stl.inertia_factor = none →
      (resolveConfig (some stl)).inertia = 0) ∧
    (∀ stl : HandwritingStyle, stl.micro_tremor_amp_px = none →
      (resolveConfig (some stl)).tremorAmp = 0) ∧
    (∀ stl : HandwritingStyle, stl.micro_tremor_freq_hz = none →
      (resolveConfig (some stl)).tremorFreq = 0) ∧
    (∀ style : Option HandwritingStyle,
      (style = none ∨ ∃ stl bv, style = some stl ∧ stl.base_ms_per_px = some bv) →
      ∀ path ∈ generateMotionPlan data canvasWidth canvasHeight style,
        (∃ x, path.startTime = some x) ∧ (∃ x, path.endTime = some x) ∧
        ∀ p ∈ path.points, ∃ x, p.time = some x) := by
  refine ⟨rfl, ?_, ?_, ?_, ?_, ?_⟩
  · intro stl h; simp [resolveConfig, h]
  · intro stl h; simp [resolveConfig, h]
  · intro stl h; simp [resolveConfig, h]
  · intro stl h; simp [resolveConfig, h]
  · intro style hbase path hpath
    have hb : ∃ bv, (resolveConfig style).baseMs = some bv := by
      rcases hbase with rfl | ⟨stl, bv, rfl, hbv⟩
      · exact ⟨12/10, rfl⟩
      · exact ⟨bv, hbv⟩
    obtain ⟨bv, hb⟩ := hb
    have hinv := foldl_planStep_inv (resolveConfig style) canvasWidth canvasHeight bv hb
      data.strokes.enum ⟨[], some 0, none⟩
      ⟨⟨0, rfl⟩, by simp, by simp, Or.inl rfl⟩
    obtain ⟨-, hgood, -, -⟩ := hinv
    obtain ⟨h1, h2, h3, -, -, hall⟩ := hgood path hpath
    refine ⟨?_, ?_, hall⟩
    · obtain ⟨x, hx⟩ := hall _ (headI_mem _ h1)
      exact ⟨x, by rw [h2, hx]⟩
    · obtain ⟨x, hx⟩ := hall _ (getLastD_mem _ _ h1)
      exact ⟨x, by rw [h3, hx]⟩

/-- Witness for `style_missing_field_defaults`: the inner no-`NaN`
clause instantiated at a style that carries only `base_ms_per_px`. -/
theorem style_missing_field_defaults_witness :
    ((some (⟨some (12/10), none, none, none, none⟩ : HandwritingStyle) : Option HandwritingStyle) = none ∨
      ∃ stl bv, (some (⟨some (12/10), none, none, none, none⟩ : HandwritingStyle) :
          Option HandwritingStyle) = some stl ∧ stl.base_ms_per_px = some bv) ∧
    (∀ path ∈ generateMotionPlan exAnalysis 10000 10000
        (some ⟨some (12/10), none, none, none, none⟩),
      (∃ x, path.startTime = some x) ∧ (∃ x, path.endTime = some x) ∧
      ∀ p ∈ path.points, ∃ x, p.time = some x) :=
  ⟨Or.inr ⟨_, 12/10, rfl, rfl⟩,
   (style_missing_field_defaults exAnalysis 10000 10000).2.2.2.2.2
     (some ⟨some (12/10), none, none, none, none⟩) (Or.inr ⟨_, 12/10, rfl, rfl⟩)⟩

/-- C2 counterexample: a style object that merely omits
`base_ms_per_px` makes `generateMotionPlan` emit a `NaN` timestamp (the
second point's `time`), contradicting the claim that no malformed style
object can produce undefined/`NaN` timestamps. -/
theorem style_missing_base_nan :
    ∃ path ∈ generateMotionPlan exAnalysis 10000 10000 (some exBadStyle),
      ∃ p ∈ path.points, p.time = none := by
  rw [exBad_plan_eval]
  exact ⟨_, List.mem_singleton_self _, ⟨some 1000, some 0, none, 3/2, 1⟩, by simp, rfl⟩

/-- C6: for two consecutive emitted strokes (the state records the
previous stroke's last processed point `q` and the running clock), a
29 px gap from `q` to the current stroke's first mapped point adds no
lift time — the emitted path starts at the incoming clock — while a
31 px gap advances the clock by exactly `min(31 × 0.5, 250) + 50 = 65.5`
ms before the stroke starts. -/
theorem penLift_threshold (cfg : PlanConfig) (canvasWidth canvasHeight : ℝ)
    (st : PlanState) (i : ℕ) (s : Stroke) (q : MPoint)
    (hprev : st.prevEndPos = some q) (hlen : 2 ≤ s.points.length) :
    (dist ((filterRedundantPoints
        (mapStrokePoints canvasWidth canvasHeight s)).headI) q = 29 →
      ∃ path, (planStep cfg canvasWidth canvasHeight st (i, s)).paths =
          st.paths ++ [path] ∧
        path.startTime = st.currentTime) ∧
    (dist ((filterRedundantPoints
        (mapStrokePoints canvasWidth canvasHeight s)).headI) q = 31 →
      ∃ path, (planStep cfg canvasWidth canvasHeight st (i, s)).paths =
          st.paths ++ [path] ∧
        path.startTime = jadd st.currentTime (some (131/2))) := by
  have hnot : ¬ (i, s).2.points.length < 2 := by
    simp only
    omega
  constructor
  · intro hd
    rw [planStep, if_neg hnot]
    refine ⟨_, rfl, ?_⟩
    show liftedTime st _ = st.currentTime
    rw [liftedTime.eq_def, hprev]
    simp only [hd]
    rw [if_neg (by norm_num)]
  · intro hd
    rw [planStep, if_neg hnot]
    refine ⟨_, rfl, ?_⟩
    show liftedTime st _ = jadd st.currentTime (some (131/2))
    rw [liftedTime.eq_def, hprev]
    simp only [hd]
    rw [if_pos (by norm_num)]
    norm_num

/-- Witness data for the pen-lift claim: a previous end point at the
origin and a stroke starting 31 px to its right. -/
def exQ : MPoint := ⟨0, 0, none, none⟩

/-- Witness stroke starting at x = 31 (on the identity mapping of a
10000 × 10000 canvas). -/
def exStroke31 : Stroke := ⟨[⟨31, 0, none, none⟩, ⟨100, 0, none, none⟩]⟩

/-- Witness planner state after some previous emitted stroke. -/
noncomputable def exState : PlanState := ⟨[], some 0, some exQ⟩

theorem exStroke31_dist :
    dist ((filterRedundantPoints
      (mapStrokePoints 10000 10000 exStroke31)).headI) exQ = 31 := by
  have hmap : mapStrokePoints 10000 10000 exStroke31 =
      [⟨31, 0, none, none⟩, ⟨100, 0, none, none⟩] := by
    simp only [mapStrokePoints, exStroke31, List.map_cons, List.map_nil]
    norm_num
  have hfilter : filterRedundantPoints [(⟨31, 0, none, none⟩ : MPoint), ⟨100, 0, none, none⟩] =
      [⟨31, 0, none, none⟩, ⟨100, 0, none, none⟩] := by
    rw [filterRedundantPoints.eq_def]
    norm_num [filterRedundantAux, List.getLastD]
  rw [hmap, hfilter]
  show dist ⟨31, 0, none, none⟩ exQ = 31
  rw [dist, exQ]
  norm_num
  rw [show ((961 : ℝ)) = 31 ^ 2 by norm_num]
  exact Real.sqrt_sq (by norm_num)

/-- Witness for `penLift_threshold`: the 31 px case at concrete inputs,
adding exactly 65.5 ms. -/
theorem penLift_threshold_witness :
    exState.prevEndPos = some exQ ∧ 2 ≤ exStroke31.points.length ∧
    dist ((filterRedundantPoints
      (mapStrokePoints 10000 10000 exStroke31)).headI) exQ = 31 ∧
    ∃ path, (planStep (resolveConfig none) 10000 10000 exState (0, exStroke31)).paths =
        exState.paths ++ [path] ∧
      path.startTime = jadd exState.currentTime (some (131/2)) :=
  ⟨rfl, by norm_num [exStroke31], exStroke31_dist,
   (penLift_threshold (resolveConfig none) 10000 10000 exState 0 exStroke31 exQ rfl
     (by norm_num [exStroke31])).2 exStroke31_dist⟩

/-! ### Thickness raycast (lines 429–444 of `localTracer.ts`)

The walker estimates local thickness by probing the four axis
directions at increasing radius `r = 1, …, 19` and stopping at the
first radius where any direction leaves the image or meets background
(`visited = 0`; consumed ink, value 2, still counts as ink).  When no
probe hits within the range, the radius keeps its initialiser 1. -/

/-- One probe at radius `r`: some axis-direction cell at distance `r`
from `(cx, cy)` is outside the image or reads 0 in the mask (an
out-of-range typed-array read yields `undefined`, which compares
unequal to 0, hence the explicit length guard). -/
def hitBg (visited : List ℕ) (pWidth pHeight : ℕ) (cx cy : ℤ) (r : ℕ) : Bool :=
  let chk : List (ℤ × ℤ) :=
    [(cx + r, cy), (cx - r, cy), (cx, cy + r), (cx, cy - r)]
  chk.any (fun c =>
    if c.1 < 0 ∨ (pWidth : ℤ) ≤ c.1 ∨ c.2 < 0 ∨ (pHeight : ℤ) ≤ c.2 then true
    else decide ((c.2 * pWidth + c.1).toNat < visited.length ∧
      visited.getD (c.2 * pWidth + c.1).toNat 0 = 0))

/-- The raycast `for` loop, fuelled (the fuel is the number of
remaining loop checks, 21 - r, so the recursion is structural). -/
def rayLoopFuel (visited : List ℕ) (pWidth pHeight : ℕ) (cx cy : ℤ) :
    ℕ → ℕ → ℕ
  | 0, _ => 1
  | fuel + 1, r =>
      if r < 20 then
        if hitBg visited pWidth pHeight cx cy r then r
        else rayLoopFuel visited pWidth pHeight cx cy fuel (r + 1)
      else 1

/-- The recorded pen radius at `(cx, cy)`. -/
def rayRadius (visited : List ℕ) (pWidth pHeight : ℕ) (cx cy : ℤ) : ℕ :=
  rayLoopFuel visited pWidth pHeight cx cy 20 1

/-- The recorded normalized thickness: `((radius * 2) / pWidth) * 10000`. -/
def thicknessNorm (visited : List ℕ) (pWidth pHeight : ℕ) (cx cy : ℤ) : ℚ :=
  ((rayRadius visited pWidth pHeight cx cy * 2 : ℚ) / (pWidth : ℚ)) * 10000

theorem rayLoopFuel_spec (visited : List ℕ) (pWidth pHeight : ℕ) (cx cy : ℤ) :
    ∀ (fuel r : ℕ), r + fuel = 21 → 1 ≤ r →
      rayLoopFuel visited pWidth pHeight cx cy fuel r =
        if h : ((Finset.Icc r 19).filter
            (fun j => hitBg visited pWidth pHeight cx cy j = true)).Nonempty
        then ((Finset.Icc r 19).filter
            (fun j => hitBg visited pWidth pHeight cx cy j = true)).min' h
        else 1 := by
  intro fuel
  induction fuel with
  | zero =>
    intro r hfr _
    have hr : r = 21 := by omega
    subst hr
    rw [rayLoopFuel]
    rw [dif_neg]
    intro ⟨j, hj⟩
    simp only [Finset.mem_filter, Finset.mem_Icc] at hj
    omega
  | succ fuel ih =>
    intro r hfr hr1
    rw [rayLoopFuel]
    by_cases hr20 : r < 20
    · rw [if_pos hr20]
      by_cases hhit : hitBg visited pWidth pHeight cx cy r = true
      · rw [if_pos hhit]
        have hmem : r ∈ (Finset.Icc r 19).filter
            (fun j => hitBg visited pWidth pHeight cx cy j = true) := by
          simp only [Finset.mem_filter, Finset.mem_Icc]
          exact ⟨⟨le_rfl, by omega⟩, hhit⟩
        rw [dif_pos ⟨r, hmem⟩]
        refine le_antisymm ?_ (Finset.min'_le _ _ hmem)
        apply Finset.le_min'
        intro y hy
        simp only [Finset.mem_filter, Finset.mem_Icc] at hy
        exact hy.1.1
      · rw [if_neg hhit]
        have hfe : (Finset.Icc r 19).filter
            (fun j => hitBg visited pWidth pHeight cx cy j = true) =
            (Finset.Icc (r + 1) 19).filter
            (fun j => hitBg visited pWidth pHeight cx cy j = true) := by
          apply Finset.ext
          intro j
          simp only [Finset.mem_filter, Finset.mem_Icc]
          constructor
          · rintro ⟨⟨hj1, hj2⟩, hj3⟩
            refine ⟨⟨?_, hj2⟩, hj3⟩
            rcases Nat.eq_or_lt_of_le hj1 with rfl | h
            · exact absurd hj3 hhit
            · omega
          · rintro ⟨⟨hj1, hj2⟩, hj3⟩
            exact ⟨⟨by omega, hj2⟩, hj3⟩
        rw [hfe]
        exact ih (r + 1) (by omega) (by omega)
    · rw [if_neg hr20]
      rw [dif_neg]
      intro ⟨j, hj⟩
      simp only [Finset.mem_filter, Finset.mem_Icc] at hj
      omega

/-- C5 (amended): the recorded local thickness is
`((radius × 2) / processingWidth) × 10000` where the radius is the
length of the shortest of the 4 axis rays — the least `r` at which some
ray meets background or the border — whenever that length is below the
raycast range of 20 px; when no ray meets background within 19 px (a
region thicker than the raycast range) the radius falls back to the
initialiser 1, NOT to the true shortest ray. -/
theorem thickness_raycast_rule (visited : List ℕ) (pWidth pHeight : ℕ) (cx cy : ℤ) :
    thicknessNorm visited pWidth pHeight cx cy =
      ((rayRadius visited pWidth pHeight cx cy * 2 : ℚ) / (pWidth : ℚ)) * 10000 ∧
    rayRadius visited pWidth pHeight cx cy =
      (if h : ((Finset.Icc 1 19).filter
          (fun j => hitBg visited pWidth pHeight cx cy j = true)).Nonempty
       then ((Finset.Icc 1 19).filter
          (fun j => hitBg visited pWidth pHeight cx cy j = true)).min' h
       else 1) :=
  ⟨rfl, rayLoopFuel_spec visited pWidth pHeight cx cy 20 1 rfl le_rfl⟩

set_option maxRecDepth 100000 in
/-- C5 counterexample: in a 41 × 41 all-ink mask, probing from the
centre (20, 20), no ray meets background within the 19 px range — the
shortest ray (to the border) is 21 px — yet the recorded radius is the
initialiser 1, so the recorded thickness is 2 px, not 2 × 21 px: the
claim fails for regions thicker than the raycast range. -/
theorem thickness_thick_region_counterexample :
    rayRadius (List.replicate (41 * 41) 1) 41 41 20 20 = 1 ∧
    hitBg (List.replicate (41 * 41) 1) 41 41 20 20 21 = true ∧
    (∀ r, 1 ≤ r → r ≤ 20 → hitBg (List.replicate (41 * 41) 1) 41 41 20 20 r = false) := by
  refine ⟨by decide, by decide, ?_⟩
  decide

/-! ### Despeckling (`despeckleBitmask` in `localTracer.ts`)

Iterative flood fill over the binary mask: for each unseen ink cell,
collect its 4-connected component with an explicit stack (`ptr` is the
read cursor, `count` the number of processed cells), then zero the
component if it is smaller than `minSize`. -/

/-- The state of one flood fill: the `seen` bitmap and the `stack` /
`componentIndices` arrays of the source. -/
structure BfsState where
  seen : List ℕ
  stack : List ℕ
  comp : List ℕ

/-- The in-bounds 4-neighbours of a cell (the source checks
`0 ≤ x < width` and `0 ≤ y < height` before forming `y*width + x`). -/
def nbrsOf (width height : ℕ) (idx : ℕ) : List ℕ :=
  let cx : ℤ := (idx % width : ℕ)
  let cy : ℤ := (idx / width : ℕ)
  (([(cx - 1, cy), (cx + 1, cy), (cx, cy - 1), (cx, cy + 1)] : List (ℤ × ℤ)).filter
    (fun n => decide (0 ≤ n.1 ∧ n.1 < (width : ℤ) ∧ 0 ≤ n.2 ∧ n.2 < (height : ℤ)))).map
    (fun n => (n.2 * (width : ℤ) + n.1).toNat)

/-- Visit one neighbour: push it when it is ink and unseen (an
out-of-range `seen` read yields `undefined ≠ 0` in JS, hence the length
guard; an out-of-range `data` read yields `undefined ≠ 1`, which the
`getD` default 0 already gives). -/
def pushNbr (data : List ℕ) (st : BfsState) (n : ℕ) : BfsState :=
  if data.getD n 0 = 1 ∧ n < st.seen.length ∧ st.seen.getD n 0 = 0 then
    ⟨st.seen.set n 1, st.stack ++ [n], st.comp ++ [n]⟩
  else st

/-- Process one popped cell: scan its 4 neighbours in order. -/
def processCell (data : List ℕ) (width height : ℕ) (st : BfsState) (idx : ℕ) :
    BfsState :=
  (nbrsOf width height idx).foldl (pushNbr data) st

theorem pushNbr_measure (data : List ℕ) (st : BfsState) (n : ℕ) :
    5 * ((pushNbr data st n).seen.countP (fun v => v = 0)) +
      (pushNbr data st n).stack.length ≤
    5 * (st.seen.countP (fun v => v = 0)) + st.stack.length ∧
    st.stack.length ≤ (pushNbr data st n).stack.length ∧
    (pushNbr data st n).seen.length = st.seen.length := by
  rw [pushNbr]
  split
  · rename_i hcond
    obtain ⟨-, hlt, hz⟩ := hcond
    have hget : st.seen[n] = 0 := by
      rw [← List.getD_eq_getElem st.seen 0 hlt]
      exact hz
    have hcount := List.countP_set (fun v => decide (v = 0)) st.seen n 1 hlt
    rw [hget] at hcount
    norm_num at hcount
    have hpos : 0 < st.seen.countP (fun v => v = 0) := by
      rw [List.countP_pos_iff]
      exact ⟨0, by rw [← hget]; exact List.getElem_mem hlt, by norm_num⟩
    refine ⟨?_, by simp, by simp⟩
    simp only [List.length_append, List.length_cons, List.length_nil]
    omega
  · exact ⟨le_rfl, le_rfl, rfl⟩

theorem processCell_measure (data : List ℕ) (width height : ℕ) (st : BfsState)
    (idx : ℕ) :
    5 * ((processCell data width height st idx).seen.countP (fun v => v = 0)) +
      (processCell data width height st idx).stack.length ≤
    5 * (st.seen.countP (fun v => v = 0)) + st.stack.length ∧
    st.stack.length ≤ (processCell data width height st idx).stack.length := by
  rw [processCell]
  generalize nbrsOf width height idx = ns
  induction ns generalizing st with
  | nil => exact ⟨le_rfl, le_rfl⟩
  | cons n rest ih =>
    simp only [List.foldl_cons]
    obtain ⟨h1, h2, -⟩ := pushNbr_measure data st n
    obtain ⟨h3, h4⟩ := ih (pushNbr data st n)
    exact ⟨le_trans h3 h1, le_trans h2 h4⟩

/-- The flood-fill `while (ptr < stack.length)` loop; returns the final
state and the processed-cell count. -/
def bfsLoop (data : List ℕ) (width height : ℕ) (st : BfsState) (ptr count : ℕ) :
    BfsState × ℕ :=
  if h : ptr < st.stack.length then
    bfsLoop data width height
      (processCell data width height st (st.stack.getD ptr 0)) (ptr + 1) (count + 1)
  else (st, count)
termination_by 5 * (st.seen.countP (fun v => v = 0)) + (st.stack.length - ptr)
decreasing_by
  obtain ⟨h1, h2⟩ := processCell_measure data width height st (st.stack.getD ptr 0)
  omega

theorem foldl_set_zero_length (data : List ℕ) (l : List ℕ) :
    (l.foldl (fun d idx => d.set idx 0) data).length = data.length := by
  induction l generalizing data with
  | nil => rfl
  | cons n rest ih => simp only [List.foldl_cons]; rw [ih]; simp

/-- Zero a component when the processed count fell below `minSize`. -/
def maybeZero (data : List ℕ) (comp : List ℕ) (count minSize : ℕ) : List ℕ :=
  if count < minSize then comp.foldl (fun d idx => d.set idx 0) data else data

theorem maybeZero_length (data comp : List ℕ) (count minSize : ℕ) :
    (maybeZero data comp count minSize).length = data.length := by
  rw [maybeZero]
  split
  · exact foldl_set_zero_length data comp
  · rfl

/-- The outer despeckle scan over all cells: start a flood fill at each
unseen ink cell and zero its component when it has fewer than `minSize`
cells. -/
def despeckleLoop (data : List ℕ) (width height minSize : ℕ) (seen : List ℕ)
    (i : ℕ) : List ℕ :=
  if hi : i < data.length then
    if data.getD i 0 = 1 ∧ i < seen.length ∧ seen.getD i 0 = 0 then
      despeckleLoop
        (maybeZero data (bfsLoop data width height ⟨seen.set i 1, [i], [i]⟩ 0 0).1.comp
          (bfsLoop data width height ⟨seen.set i 1, [i], [i]⟩ 0 0).2 minSize)
        width height minSize
        (bfsLoop data width height ⟨seen.set i 1, [i], [i]⟩ 0 0).1.seen (i + 1)
    else despeckleLoop data width height minSize seen (i + 1)
  else data
termination_by data.length - i
decreasing_by
  · rw [maybeZero_length]
    omega
  · omega

/-- `despeckleBitmask`: despeckle the whole mask with a fresh `seen`
bitmap. -/
def despeckleBitmask (data : List ℕ) (width height minSize : ℕ) : List ℕ :=
  despeckleLoop data width height minSize (List.replicate data.length 0) 0

/-! ### Mask builder and stroke walker (`analyzeSignatureLocal`)

The RGBA pixel buffer is a flat byte list; the mask holds 0
(background), 1 (unconsumed ink) or 2 (consumed ink).  The walker's
real-valued positions are exact rationals. -/

/-- The ink threshold (line 370): luminance below 200 and alpha above
50. -/
def inkPixel (data : List ℕ) (idx : ℕ) : Bool :=
  let r := data.getD (4 * idx) 0
  let g := data.getD (4 * idx + 1) 0
  let b := data.getD (4 * idx + 2) 0
  let a := data.getD (4 * idx + 3) 0
  decide ((299/1000 : ℚ) * r + (587/1000) * g + (114/1000) * b < 200 ∧ (a : ℚ) > 50)

/-- The binary mask built from the pixel buffer (one cell per RGBA
quadruple; `getImageData` guarantees `data.length = 4 × width ×
height`). -/
def buildMask (data : List ℕ) (pWidth pHeight : ℕ) : List ℕ :=
  (List.range (pWidth * pHeight)).map (fun idx => if inkPixel data idx then 1 else 0)

/-- The seed scan `while (globalSearchIdx < visited.length)`, fuelled by
the number of remaining cells. -/
def findSeedFuel (visited : List ℕ) : ℕ → ℕ → Option ℕ
  | 0, _ => none
  | fuel + 1, g => if visited.getD g 0 = 1 then some g else findSeedFuel visited fuel (g + 1)

/-- Find the next unconsumed ink cell at or after `g`. -/
def findSeed (visited : List ℕ) (g : ℕ) : Option ℕ :=
  findSeedFuel visited (visited.length - g) g

/-- Opacity sampling (lines 420–427): alpha times the darkness floor-ed
at 0.1, defaulting to 1.0 out of range. -/
def sampleOpacity (data : List ℕ) (sampleIdx : ℤ) : ℚ :=
  if 0 ≤ sampleIdx ∧ (sampleIdx : ℚ) < (data.length : ℚ) / 4 then
    let offset := sampleIdx.toNat * 4
    let alpha : ℚ := (data.getD (offset + 3) 0 : ℚ) / 255
    let lum : ℚ := (299/1000) * (data.getD offset 0 : ℚ) +
      (587/1000) * (data.getD (offset + 1) 0 : ℚ) +
      (114/1000) * (data.getD (offset + 2) 0 : ℚ)
    alpha * max (1/10) (1 - lum / 255)
  else 1

/-- `parseFloat(x.toFixed(2))` on a non-negative value: round to two
decimals. -/
def jfix2 (q : ℚ) : ℚ := (jround (q * 100) : ℚ) / 100

/-- The integers `a, a+1, …, b-1`. -/
def intRange (a b : ℤ) : List ℤ := (List.range (b - a).toNat).map (fun k => a + k)

/-- Ink consumption (lines 457–470): mark every unconsumed ink cell in
the pen-radius-3 disk around `(cx, cy)` as consumed (value 2). -/
def consumeInk (visited : List ℕ) (pWidth pHeight : ℕ) (cx cy : ℤ) : List ℕ :=
  (intRange (-3) 4).foldl (fun v dy =>
    (intRange (-3) 4).foldl (fun v dx =>
      if dx * dx + dy * dy ≤ 9 then
        if 0 ≤ cx + dx ∧ cx + dx < (pWidth : ℤ) ∧ 0 ≤ cy + dy ∧ cy + dy < (pHeight : ℤ) then
          let nIdx := ((cy + dy) * (pWidth : ℤ) + (cx + dx)).toNat
          if v.getD nIdx 0 = 1 then v.set nIdx 2 else v
        else v
      else v) v) visited

/-- Centroid scan (lines 472–488): sum the coordinates of unconsumed
ink cells in the search-radius-5 box around `(cx, cy)`. -/
def centroidScan (visited : List ℕ) (pWidth pHeight : ℕ) (cx cy : ℤ) : ℤ × ℤ × ℕ :=
  (intRange (max 0 (cy - 5)) (min (pHeight : ℤ) (cy + 5))).foldl (fun acc y =>
    (intRange (max 0 (cx - 5)) (min (pWidth : ℤ) (cx + 5))).foldl (fun acc x =>
      if visited.getD (y * (pWidth : ℤ) + x).toNat 0 = 1 then
        (acc.1 + x, acc.2.1 + y, acc.2.2 + 1)
      else acc) acc) (0, 0, 0)

/-- One per-stroke walk (`while (tracing && strokeSafety < 10000)`):
sample opacity and thickness, record the normalized point, consume ink,
recentre on the local ink centroid; returns the mutated mask, the
recorded points and the final safety counter. -/
def innerWalkLoop (data : List ℕ) (pWidth pHeight : ℕ) (visited : List ℕ)
    (pos : ℚ × ℚ) (acc : List RawPoint) (strokeSafety : ℕ) :
    List ℕ × List RawPoint × ℕ :=
  if strokeSafety < 10000 then
    let cxInt := jround pos.1
    let cyInt := jround pos.2
    let point : RawPoint :=
      ⟨jround ((pos.1 / (pWidth : ℚ)) * 10000),
       jround ((pos.2 / (pHeight : ℚ)) * 10000),
       some (thicknessNorm visited pWidth pHeight cxInt cyInt),
       some (jfix2 (sampleOpacity data (cyInt * (pWidth : ℤ) + cxInt)))⟩
    let visited' := consumeInk visited pWidth pHeight cxInt cyInt
    let scan := centroidScan visited' pWidth pHeight cxInt cyInt
    if 0 < scan.2.2 then
      innerWalkLoop data pWidth pHeight visited'
        ((scan.1 : ℚ) / (scan.2.2 : ℚ), (scan.2.1 : ℚ) / (scan.2.2 : ℚ))
        (acc ++ [point]) (strokeSafety + 1)
    else (visited', acc ++ [point], strokeSafety + 1)
  else (visited, acc, strokeSafety)
termination_by 10000 - strokeSafety
decreasing_by omega

/-- The outer stroke-seeking loop (`while (active && safetyCounter <
10000)`): find the next seed, walk it, keep the stroke when it has more
than 3 points; returns the mutated mask, the raw strokes and the final
safety counter. -/
def outerWalkLoop (data : List ℕ) (pWidth pHeight : ℕ) (visited : List ℕ)
    (globalSearchIdx : ℕ) (rawStrokes : List Stroke) (safetyCounter : ℕ) :
    List ℕ × List Stroke × ℕ :=
  if safetyCounter < 10000 then
    match findSeed visited globalSearchIdx with
    | none => (visited, rawStrokes, safetyCounter + 1)
    | some startIdx =>
        let out := innerWalkLoop data pWidth pHeight visited
          (((startIdx % pWidth : ℕ) : ℚ), ((startIdx / pWidth : ℕ) : ℚ)) [] 0
        outerWalkLoop data pWidth pHeight out.1 startIdx
          (if 3 < out.2.1.length then rawStrokes ++ [⟨out.2.1⟩] else rawStrokes)
          (safetyCounter + 1)
  else (visited, rawStrokes, safetyCounter)
termination_by 10000 - safetyCounter
decreasing_by omega

/-! ### Stroke post-processing stages used by `analyzeSignatureLocal` -/

/-- The merge loop (lines 504–522): concatenate consecutive ordered
strokes whose gap is below 300 units. -/
def mergeLoop (current : Stroke) : List Stroke → List Stroke
  | [] => [current]
  | nextS :: rest =>
      if distSq (current.points.getLastD default) (nextS.points.headI) < 300 * 300 then
        mergeLoop ⟨current.points ++ nextS.points⟩ rest
      else current :: mergeLoop nextS rest

/-- Merge near-adjacent ordered strokes. -/
def mergeStrokes : List Stroke → List Stroke
  | [] => []
  | s :: rest => mergeLoop s rest

/-- The dedup filter (lines 534–538): keep a point when it is the first
or farther than 100 units² from its original predecessor. -/
def dedupAux : RawPoint → List RawPoint → List RawPoint
  | _, [] => []
  | prev, p :: rest => (if distSq p prev > 100 then [p] else []) ++ dedupAux p rest

/-- Drop consecutive near-duplicate points. -/
def dedupPoints : List RawPoint → List RawPoint
  | [] => []
  | p0 :: rest => p0 :: dedupAux p0 rest

/-- The on-ink test (lines 545–560): some cell of the ±2 neighbourhood
of the point's mask position carries ink (value > 0). -/
def onInkHit (visited : List ℕ) (pWidth pHeight : ℕ) (p : RawPoint) : Bool :=
  (intRange (-2) 3).any (fun ry => (intRange (-2) 3).any (fun rx =>
    let idx := (⌊((p.y : ℚ) / 10000) * (pHeight : ℚ)⌋ + ry) * (pWidth : ℤ) +
      (⌊((p.x : ℚ) / 10000) * (pWidth : ℚ)⌋ + rx)
    decide (0 ≤ idx ∧ idx < (visited.length : ℤ) ∧ 0 < visited.getD idx.toNat 0)))

/-- On-ink reprojection (lines 542–564): keep the first point, the
interior points that still touch ink, and the last point. -/
def onInkFilter (visited : List ℕ) (pWidth pHeight : ℕ) :
    List RawPoint → List RawPoint
  | [] => []
  | p0 :: rest =>
      p0 :: (rest.dropLast.filter (onInkHit visited pWidth pHeight) ++
        (match rest.getLast? with
         | some plast => [plast]
         | none => []))

/-- One sampled point of the coverage validation: hit when the 3×3 mask
neighbourhood contains ink. -/
def coverageHit (bitmask : List ℕ) (width : ℕ) (bx byv : ℤ) : Bool :=
  (intRange (-1) 2).any (fun ry => (intRange (-1) 2).any (fun rx =>
    let idx := (byv + ry) * (width : ℤ) + (bx + rx)
    decide (0 ≤ idx ∧ idx < (bitmask.length : ℤ) ∧ 0 < bitmask.getD idx.toNat 0)))

/-- Sample one segment of the coverage validation at `steps + 1`
parameter values, counting in-bounds samples and ink hits. -/
def segScan (bitmask : List ℕ) (width height : ℕ) (scaleX scaleY : ℚ)
    (p1 p2 : RawPoint) (steps : ℕ) : ℕ × ℕ :=
  (List.range (steps + 1)).foldl (fun acc j =>
    let t : ℚ := if steps = 0 then 0 else (j : ℚ) / (steps : ℚ)
    let x := (p1.x : ℚ) + ((p2.x : ℚ) - (p1.x : ℚ)) * t
    let y := (p1.y : ℚ) + ((p2.y : ℚ) - (p1.y : ℚ)) * t
    let bx := ⌊x * scaleX⌋
    let byv := ⌊y * scaleY⌋
    if 0 ≤ bx ∧ bx < (width : ℤ) ∧ 0 ≤ byv ∧ byv < (height : ℤ) then
      (acc.1 + (if coverageHit bitmask width bx byv then 1 else 0), acc.2 + 1)
    else acc) (0, 0)

/-- `validateStrokeCoverage` (lines 283–334): rasterize the simplified
stroke and require at least 55% of the in-bounds samples to hit ink. -/
noncomputable def validateStrokeCoverage (stroke : Stroke) (bitmask : List ℕ)
    (width height : ℕ) (outputScale : ℚ) : Prop :=
  if stroke.points.length < 2 then True
  else
    let scaleX : ℚ := (width : ℚ) / outputScale
    let hitsChecks := (stroke.points.zip stroke.points.tail).foldl (fun acc pq =>
      let steps : ℕ := (⌈Real.sqrt ((distSq pq.1 pq.2 : ℤ) : ℝ) /
        ((max 1 ((2 / scaleX) * outputScale) : ℚ) : ℝ)⌉).toNat
      let seg := segScan bitmask width height scaleX ((height : ℚ) / outputScale)
        pq.1 pq.2 steps
      (acc.1 + seg.1, acc.2 + seg.2)) ((0 : ℕ), (0 : ℕ))
    if hitsChecks.2 = 0 then False
    else (hitsChecks.1 : ℚ) / (hitsChecks.2 : ℚ) ≥ 55/100

open Classical in
/-- The final per-stroke pipeline (lines 533–596): dedup, on-ink
reprojection, jitter filter, simplification, coverage validation;
`none` when the stroke is rejected at any checkpoint. -/
noncomputable def finalizeStroke (visited : List ℕ) (pWidth pHeight : ℕ)
    (s : Stroke) : Option Stroke :=
  if (dedupPoints s.points).length < 3 then none
  else
    if (filterJitter (onInkFilter visited pWidth pHeight (dedupPoints s.points))).length < 3
    then none
    else
      if validateStrokeCoverage
          ⟨simplifyPoints
            (filterJitter (onInkFilter visited pWidth pHeight (dedupPoints s.points)))⟩
          visited pWidth pHeight 10000 then
        some ⟨simplifyPoints
          (filterJitter (onInkFilter visited pWidth pHeight (dedupPoints s.points)))⟩
      else none

/-- The in-browser part of `analyzeSignatureLocal` after pixel
extraction: build and despeckle the mask, walk the strokes, order,
merge, smooth and finalize them.  The function is total: every input
yields a stroke list (the promise resolves; it rejects only on image
decode failure, outside this model). -/
noncomputable def analyzeCore (data : List ℕ) (pWidth pHeight : ℕ) : List Stroke :=
  let visited1 := despeckleBitmask (buildMask data pWidth pHeight) pWidth pHeight 20
  let walked := outerWalkLoop data pWidth pHeight visited1 0 [] 0
  let orderedStrokes := optimizeStrokeOrder walked.2.1
  let mergedStrokes := mergeStrokes orderedStrokes
  let smoothedStrokes := mergedStrokes.map (fun s => ⟨smoothPoints s.points⟩)
  smoothedStrokes.filterMap (finalizeStroke walked.1 pWidth pHeight)

/-! ### Claims C8 and C9: blank input and termination caps -/

theorem innerWalkLoop_counter (data : List ℕ) (pWidth pHeight : ℕ) :
    ∀ (n : ℕ) (visited : List ℕ) (pos : ℚ × ℚ) (acc : List RawPoint) (c : ℕ),
      c ≤ 10000 → 10000 - c ≤ n →
      (innerWalkLoop data pWidth pHeight visited pos acc c).2.2 ≤ 10000 := by
  intro n
  induction n with
  | zero =>
    intro visited pos acc c hc hn
    have hceq : c = 10000 := by omega
    subst hceq
    rw [innerWalkLoop]
    simp
  | succ n ih =>
    intro visited pos acc c hc hn
    rw [innerWalkLoop]
    split
    · dsimp only
      split
      · exact ih _ _ _ _ (by omega) (by omega)
      · simp only
        omega
    · simp only
      omega

theorem outerWalkLoop_counter (data : List ℕ) (pWidth pHeight : ℕ) :
    ∀ (n : ℕ) (visited : List ℕ) (g : ℕ) (raw : List Stroke) (c : ℕ),
      c ≤ 10000 → 10000 - c ≤ n →
      (outerWalkLoop data pWidth pHeight visited g raw c).2.2 ≤ 10000 := by
  intro n
  induction n with
  | zero =>
    intro visited g raw c hc hn
    have hceq : c = 10000 := by omega
    subst hceq
    rw [outerWalkLoop]
    simp
  | succ n ih =>
    intro visited g raw c hc hn
    rw [outerWalkLoop]
    split
    · dsimp only
      split
      · simp only
        omega
      · exact ih _ _ _ _ (by omega) (by omega)
    · simp only
      omega

/-- C9: the walker terminates on every mask: the outer stroke-seeking
loop and each inner per-stroke walk are bounded by their explicit
safety counters at 10000.  Each loop body increments its counter
exactly once, so the returned final counter equals the number of body
executions; starting from 0 it never exceeds 10000. -/
theorem walker_iteration_caps (data : List ℕ) (pWidth pHeight : ℕ)
    (visited : List ℕ) (g : ℕ) (raw : List Stroke) (pos : ℚ × ℚ)
    (acc : List RawPoint) :
    (outerWalkLoop data pWidth pHeight visited g raw 0).2.2 ≤ 10000 ∧
    (innerWalkLoop data pWidth pHeight visited pos acc 0).2.2 ≤ 10000 :=
  ⟨outerWalkLoop_counter data pWidth pHeight 10000 visited g raw 0 (by omega) (by omega),
   innerWalkLoop_counter data pWidth pHeight 10000 visited pos acc 0 (by omega) (by omega)⟩

theorem buildMask_no_ink (data : List ℕ) (pWidth pHeight : ℕ)
    (hblank : ∀ idx < pWidth * pHeight, inkPixel data idx = false) :
    ∀ j, (buildMask data pWidth pHeight).getD j 0 ≠ 1 := by
  intro j
  rw [buildMask]
  by_cases hj : j < pWidth * pHeight
  · rw [List.getD_eq_getElem _ _ (by simpa using hj)]
    simp only [List.getElem_map, List.getElem_range]
    rw [hblank j hj]
    simp
  · rw [List.getD_eq_default]
    · simp
    · simpa using hj

theorem despeckleLoop_skip (width height minSize : ℕ) :
    ∀ (n : ℕ) (data seen : List ℕ) (i : ℕ), data.length - i ≤ n →
      (∀ j, data.getD j 0 ≠ 1) →
      despeckleLoop data width height minSize seen i = data := by
  intro n
  induction n with
  | zero =>
    intro data seen i hn hno
    rw [despeckleLoop]
    rw [dif_neg (by omega)]
  | succ n ih =>
    intro data seen i hn hno
    rw [despeckleLoop]
    split
    · rw [if_neg (by
        rintro ⟨h1, -, -⟩
        exact hno i h1)]
      exact ih data seen (i + 1) (by omega) hno
    · rfl

theorem despeckleBitmask_no_ink (data : List ℕ) (width height minSize : ℕ)
    (hno : ∀ j, data.getD j 0 ≠ 1) :
    despeckleBitmask data width height minSize = data :=
  despeckleLoop_skip width height minSize data.length data _ 0 (by omega) hno

theorem findSeedFuel_none (visited : List ℕ) (hno : ∀ j, visited.getD j 0 ≠ 1) :
    ∀ (fuel g : ℕ), findSeedFuel visited fuel g = none := by
  intro fuel
  induction fuel with
  | zero => intro g; rfl
  | succ fuel ih =>
    intro g
    rw [findSeedFuel]
    rw [if_neg (hno g)]
    exact ih (g + 1)

theorem outerWalkLoop_blank (data : List ℕ) (pWidth pHeight : ℕ)
    (visited : List ℕ) (hno : ∀ j, visited.getD j 0 ≠ 1) :
    outerWalkLoop data pWidth pHeight visited 0 [] 0 = (visited, [], 1) := by
  rw [outerWalkLoop]
  rw [if_pos (by omega)]
  rw [show findSeed visited 0 = none from findSeedFuel_none visited hno _ 0]

/-- C8: an input image whose pixels are all below the ink threshold
produces zero raw strokes, and the analysis result carries an empty
stroke list.  The model is a total function — this path raises no
exception and the promise resolves (a rejection only occurs on image
decode failure, before the traced code runs). -/
theorem blank_image_empty_analysis (data : List ℕ) (pWidth pHeight : ℕ)
    (hblank : ∀ idx < pWidth * pHeight, inkPixel data idx = false) :
    (outerWalkLoop data pWidth pHeight
      (despeckleBitmask (buildMask data pWidth pHeight) pWidth pHeight 20)
      0 [] 0).2.1 = [] ∧
    analyzeCore data pWidth pHeight = [] := by
  have hmask := buildMask_no_ink data pWidth pHeight hblank
  have hdesp : despeckleBitmask (buildMask data pWidth pHeight) pWidth pHeight 20 =
      buildMask data pWidth pHeight :=
    despeckleBitmask_no_ink _ _ _ _ hmask
  have hwalk : outerWalkLoop data pWidth pHeight
      (despeckleBitmask (buildMask data pWidth pHeight) pWidth pHeight 20) 0 [] 0 =
      (buildMask data pWidth pHeight, [], 1) := by
    rw [hdesp]
    exact outerWalkLoop_blank data pWidth pHeight _ hmask
  refine ⟨by rw [hwalk], ?_⟩
  rw [analyzeCore]
  rw [hwalk]
  simp [optimizeStrokeOrder, mergeStrokes]

theorem blank_pixels_one_by_one : ∀ idx < 1 * 1, inkPixel [] idx = false := by
  intro idx h
  have hidx : idx = 0 := by omega
  subst hidx
  simp only [inkPixel, List.getD_nil, decide_eq_false_iff_not]
  norm_num

/-- Witness for `blank_image_empty_analysis` at a concrete blank 1×1
image. -/
theorem blank_image_empty_analysis_witness :
    (∀ idx < 1 * 1, inkPixel [] idx = false) ∧
    ((outerWalkLoop [] 1 1
      (despeckleBitmask (buildMask [] 1 1) 1 1 20) 0 [] 0).2.1 = [] ∧
    analyzeCore [] 1 1 = []) :=
  ⟨blank_pixels_one_by_one,
   blank_image_empty_analysis [] 1 1 blank_pixels_one_by_one⟩

/-! ### Claim C4: despeckle correctness

Specification-side notions: an ink cell of a mask, 4-adjacency steps
between ink cells (via the in-bounds neighbour list `nbrsOf`, the same
geometric notion the code walks), reachability, connectivity, and the
ink count. -/

/-- `j` is an ink cell of the mask `d`. -/
def InkCell (d : List ℕ) (j : ℕ) : Prop := j < d.length ∧ d.getD j 0 = 1

/-- One 4-adjacency step between ink cells of the mask. -/
def MaskStep (d : List ℕ) (width height : ℕ) (a b : ℕ) : Prop :=
  b ∈ nbrsOf width height a ∧ InkCell d a ∧ InkCell d b

/-- Reachability along ink cells. -/
def MaskReach (d : List ℕ) (width height : ℕ) (a b : ℕ) : Prop :=
  Relation.ReflTransGen (MaskStep d width height) a b

/-- The mask's ink forms (at most) one 4-connected component. -/
def InkConnected (d : List ℕ) (width height : ℕ) : Prop :=
  ∀ a b, InkCell d a → InkCell d b → MaskReach d width height a b

/-- The set of ink cells, as a finite set of indices. -/
def inkFinset (d : List ℕ) : Finset ℕ :=
  (Finset.range d.length).filter (fun j => d.getD j 0 = 1)

open Classical in
/-- The connected component of `j` in the mask `d`. -/
noncomputable def componentOf (d : List ℕ) (width height : ℕ) (j : ℕ) : Finset ℕ :=
  (inkFinset d).filter (fun i => MaskReach d width height j i)

theorem mem_inkFinset (d : List ℕ) (j : ℕ) : j ∈ inkFinset d ↔ InkCell d j := by
  simp [inkFinset, InkCell]

/-! Helper `getD` lemmas. -/

theorem getD_set_same (l : List ℕ) (n a : ℕ) (h : n < l.length) :
    (l.set n a).getD n 0 = a := by
  rw [List.getD_eq_getElem?_getD, List.getElem?_set_self (by simpa using h)]
  rfl

theorem getD_set_other (l : List ℕ) (n a m : ℕ) (h : n ≠ m) :
    (l.set n a).getD m 0 = l.getD m 0 := by
  rw [List.getD_eq_getElem?_getD, List.getD_eq_getElem?_getD, List.getElem?_set_ne h]

theorem getD_replicate_zero (n j : ℕ) : (List.replicate n (0 : ℕ)).getD j 0 = 0 := by
  rw [List.getD_eq_getElem?_getD]
  rcases Nat.lt_or_ge j n with h | h
  · rw [List.getElem?_eq_getElem (by simpa using h)]
    simp
  · rw [List.getElem?_eq_none (by simpa using h)]
    rfl

theorem getD_out_of_range (l : List ℕ) (j : ℕ) (h : l.length ≤ j) : l.getD j 0 = 0 :=
  List.getD_eq_default l 0 h

/-! The flood-fill invariant. -/

/-- The standing properties of the flood-fill state: `comp` mirrors the
stack, `seen` marks exactly the stacked cells, the stack is
duplicate-free and consists of ink cells reachable from the seed. -/
def BfsCore (data : List ℕ) (width height seed : ℕ) (st : BfsState) : Prop :=
  st.comp = st.stack ∧
  st.seen.length = data.length ∧
  st.stack.Nodup ∧
  seed ∈ st.stack ∧
  (∀ n, st.seen.getD n 0 = 1 ↔ n ∈ st.stack) ∧
  (∀ n, st.seen.getD n 0 = 0 ∨ st.seen.getD n 0 = 1) ∧
  (∀ n ∈ st.stack, InkCell data n ∧ MaskReach data width height seed n)

/-- The loop invariant of `bfsLoop`: the core properties, cursor and
count bookkeeping, and closure of the processed prefix under ink
adjacency. -/
def BfsInv (data : List ℕ) (width height seed : ℕ) (st : BfsState)
    (ptr count : ℕ) : Prop :=
  BfsCore data width height seed st ∧ ptr ≤ st.stack.length ∧ count = ptr ∧
  (∀ k, k < ptr → ∀ n ∈ nbrsOf width height (st.stack.getD k 0),
    InkCell data n → n ∈ st.stack)

theorem pushNbr_spec (data : List ℕ) (width height seed : ℕ) (st : BfsState)
    (idx n : ℕ) (hcore : BfsCore data width height seed st)
    (hidxink : InkCell data idx)
    (hidxreach : MaskReach data width height seed idx)
    (hn : n ∈ nbrsOf width height idx) :
    BfsCore data width height seed (pushNbr data st n) ∧
    (∃ tail, (pushNbr data st n).stack = st.stack ++ tail) ∧
    (InkCell data n → n ∈ (pushNbr data st n).stack) := by
  obtain ⟨hcomp, hlen, hnodup, hseed, hiff, hbin, hmem⟩ := hcore
  rw [pushNbr]
  split
  · rename_i hg
    obtain ⟨hg1, hg2, hg3⟩ := hg
    have hnotin : n ∉ st.stack := by
      intro hc
      rw [← hiff n] at hc
      rw [hc] at hg3
      cases hg3
    have hink : InkCell data n := ⟨by rw [← hlen]; exact hg2, hg1⟩
    have hreach : MaskReach data width height seed n :=
      Relation.ReflTransGen.tail hidxreach ⟨hn, hidxink, hink⟩
    refine ⟨⟨by simp [hcomp], by simp [hlen], ?_, ?_, ?_, ?_, ?_⟩, ⟨[n], rfl⟩, ?_⟩
    · simp only [List.nodup_append, List.nodup_cons, List.nodup_nil]
      exact ⟨hnodup, by simp, by simpa using hnotin⟩
    · exact List.mem_append_left _ hseed
    · intro m
      by_cases hm : n = m
      · subst hm
        rw [getD_set_same _ _ _ hg2]
        simp
      · rw [getD_set_other _ _ _ _ hm, hiff m]
        simp only [List.mem_append, List.mem_singleton]
        constructor
        · exact Or.inl
        · rintro (hml | rfl)
          · exact hml
          · exact absurd rfl hm
    · intro m
      by_cases hm : n = m
      · subst hm
        rw [getD_set_same _ _ _ hg2]
        simp
      · rw [getD_set_other _ _ _ _ hm]
        exact hbin m
    · intro m hmem2
      rcases List.mem_append.mp hmem2 with hml | hml
      · exact hmem m hml
      · rw [List.mem_singleton] at hml
        subst hml
        exact ⟨hink, hreach⟩
    · intro _
      simp
  · rename_i hg
    refine ⟨⟨hcomp, hlen, hnodup, hseed, hiff, hbin, hmem⟩, ⟨[], by simp⟩, ?_⟩
    intro hink
    push_neg at hg
    have h2 : n < st.seen.length := by rw [hlen]; exact hink.1
    have h3 := hg hink.2 h2
    rcases hbin n with h0 | h1
    · exact absurd h0 h3
    · rw [← hiff n]
      exact h1

theorem processCell_spec (data : List ℕ) (width height seed : ℕ) (st : BfsState)
    (idx : ℕ) (hcore : BfsCore data width height seed st)
    (hidxink : InkCell data idx)
    (hidxreach : MaskReach data width height seed idx) :
    BfsCore data width height seed (processCell data width height st idx) ∧
    (∃ tail, (processCell data width height st idx).stack = st.stack ++ tail) ∧
    (∀ n ∈ nbrsOf width height idx, InkCell data n →
      n ∈ (processCell data width height st idx).stack) := by
  rw [processCell]
  have H : ∀ (ns : List ℕ), (∀ n ∈ ns, n ∈ nbrsOf width height idx) →
      ∀ st, BfsCore data width height seed st →
      BfsCore data width height seed (ns.foldl (pushNbr data) st) ∧
      (∃ tail, (ns.foldl (pushNbr data) st).stack = st.stack ++ tail) ∧
      (∀ n ∈ ns, InkCell data n → n ∈ (ns.foldl (pushNbr data) st).stack) := by
    intro ns
    induction ns with
    | nil =>
      intro _ st hc
      exact ⟨hc, ⟨[], by simp⟩, by simp⟩
    | cons n rest ih =>
      intro hsub st hc
      obtain ⟨hc1, ⟨t1, he1⟩, hm1⟩ :=
        pushNbr_spec data width height seed st idx n hc hidxink hidxreach
          (hsub n (by simp))
      obtain ⟨hc2, ⟨t2, he2⟩, hm2⟩ := ih (fun x hx => hsub x (by simp [hx])) _ hc1
      simp only [List.foldl_cons]
      refine ⟨hc2, ⟨t1 ++ t2, by rw [he2, he1, List.append_assoc]⟩, ?_⟩
      intro x hx hxink
      rcases List.mem_cons.mp hx with rfl | hx
      · rw [he2]
        exact List.mem_append_left _ (hm1 hxink)
      · exact hm2 x hx hxink
  exact H (nbrsOf width height idx) (fun n hn => hn) st hcore

theorem bfs_step (data : List ℕ) (width height seed : ℕ) (st : BfsState)
    (ptr count : ℕ) (hinv : BfsInv data width height seed st ptr count)
    (hlt : ptr < st.stack.length) :
    BfsInv data width height seed
      (processCell data width height st (st.stack.getD ptr 0)) (ptr + 1) (count + 1) := by
  obtain ⟨hcore, hle, hcnt, hclosed⟩ := hinv
  have hidxmem : st.stack.getD ptr 0 ∈ st.stack := by
    rw [List.getD_eq_getElem _ _ hlt]
    exact List.getElem_mem hlt
  obtain ⟨hidxink, hidxreach⟩ := hcore.2.2.2.2.2.2 _ hidxmem
  obtain ⟨hcore', ⟨tail, htail⟩, hnbrs⟩ :=
    processCell_spec data width height seed st (st.stack.getD ptr 0) hcore hidxink hidxreach
  refine ⟨hcore', ?_, by omega, ?_⟩
  · rw [htail, List.length_append]
    omega
  · intro k hk n hn hnink
    have hgetD : (processCell data width height st (st.stack.getD ptr 0)).stack.getD k 0 =
        st.stack.getD k 0 := by
      rw [htail]
      exact List.getD_append _ _ 0 k (by omega)
    rcases Nat.lt_or_ge k ptr with hkp | hkp
    · have := hclosed k hkp n (by rwa [hgetD] at hn) hnink
      rw [htail]
      exact List.mem_append_left _ this
    · have hkeq : k = ptr := by omega
      subst hkeq
      exact hnbrs n (by rwa [hgetD] at hn) hnink

theorem bfsLoop_inv (data : List ℕ) (width height seed : ℕ) :
    ∀ (m : ℕ) (st : BfsState) (ptr count : ℕ),
      5 * (st.seen.countP (fun v => v = 0)) + (st.stack.length - ptr) ≤ m →
      BfsInv data width height seed st ptr count →
      BfsInv data width height seed (bfsLoop data width height st ptr count).1
        ((bfsLoop data width height st ptr count).1.stack.length)
        (bfsLoop data width height st ptr count).2 := by
  intro m
  induction m with
  | zero =>
    intro st ptr count hm hinv
    have heq : ptr = st.stack.length := by
      have := hinv.2.1
      omega
    rw [bfsLoop]
    rw [dif_neg (by omega)]
    dsimp only
    obtain ⟨hcore, hle, hcnt, hclosed⟩ := hinv
    exact ⟨hcore, le_rfl, by omega, by rw [← heq]; exact hclosed⟩
  | succ m ih =>
    intro st ptr count hm hinv
    rw [bfsLoop]
    split
    · rename_i hlt
      have hstep := bfs_step data width height seed st ptr count hinv hlt
      obtain ⟨h1, h2⟩ := processCell_measure data width height st (st.stack.getD ptr 0)
      exact ih _ _ _ (by omega) hstep
    · rename_i hge
      have heq : ptr = st.stack.length := by
        have := hinv.2.1
        omega
      dsimp only
      obtain ⟨hcore, hle, hcnt, hclosed⟩ := hinv
      exact ⟨hcore, le_rfl, by omega, by rw [← heq]; exact hclosed⟩

theorem bfs_final (data : List ℕ) (width height seed : ℕ)
    (hseed : InkCell data seed) :
    BfsCore data width height seed
      (bfsLoop data width height
        ⟨(List.replicate data.length 0).set seed 1, [seed], [seed]⟩ 0 0).1 ∧
    (bfsLoop data width height
      ⟨(List.replicate data.length 0).set seed 1, [seed], [seed]⟩ 0 0).2 =
      (bfsLoop data width height
        ⟨(List.replicate data.length 0).set seed 1, [seed], [seed]⟩ 0 0).1.stack.length ∧
    (∀ n, n ∈ (bfsLoop data width height
        ⟨(List.replicate data.length 0).set seed 1, [seed], [seed]⟩ 0 0).1.stack ↔
      (InkCell data n ∧ MaskReach data width height seed n)) := by
  have hinit : BfsInv data width height seed
      ⟨(List.replicate data.length 0).set seed 1, [seed], [seed]⟩ 0 0 := by
    refine ⟨⟨rfl, by simp, by simp, by simp, ?_, ?_, ?_⟩, by simp, rfl, by omega⟩
    · intro n
      by_cases hn : seed = n
      · subst hn
        rw [getD_set_same _ _ _ (by simpa using hseed.1)]
        simp
      · rw [getD_set_other _ _ _ _ hn, getD_replicate_zero]
        simp only [List.mem_singleton]
        constructor
        · intro hc; cases hc
        · intro hc; exact absurd hc.symm hn
    · intro n
      by_cases hn : seed = n
      · subst hn
        rw [getD_set_same _ _ _ (by simpa using hseed.1)]
        simp
      · rw [getD_set_other _ _ _ _ hn, getD_replicate_zero]
        simp
    · intro n hn
      rw [List.mem_singleton] at hn
      subst hn
      exact ⟨hseed, Relation.ReflTransGen.refl⟩
  have hfin := bfsLoop_inv data width height seed
    (5 * (((List.replicate data.length 0).set seed 1).countP (fun v => v = 0)) + 1)
    ⟨(List.replicate data.length 0).set seed 1, [seed], [seed]⟩ 0 0 (by simp) hinit
  obtain ⟨hcore, hle, hcnt, hclosed⟩ := hfin
  refine ⟨hcore, hcnt, ?_⟩
  intro n
  constructor
  · intro hn
    exact hcore.2.2.2.2.2.2 n hn
  · rintro ⟨hink, hreach⟩
    rw [MaskReach] at hreach
    induction hreach with
    | refl => exact hcore.2.2.2.1
    | tail hab hbc ihab =>
      rename_i b c
      have hbmem := ihab hbc.2.1
      obtain ⟨k, hk, hkeq⟩ := List.mem_iff_getElem.mp hbmem
      have := hclosed k hk c (by
        rw [List.getD_eq_getElem _ _ hk, hkeq]
        exact hbc.1) hink
      exact this

/-! Outer despeckle loop lemmas. -/

theorem zero_fold_preserve (l : List ℕ) (d : List ℕ) (j : ℕ) (h : d.getD j 0 = 0) :
    (l.foldl (fun d idx => d.set idx 0) d).getD j 0 = 0 := by
  induction l generalizing d with
  | nil => exact h
  | cons n rest ih =>
    simp only [List.foldl_cons]
    apply ih
    by_cases hn : n = j
    · subst hn
      rcases Nat.lt_or_ge n d.length with hlt | hge
      · exact getD_set_same d n 0 hlt
      · rw [getD_out_of_range _ _ (by simpa using hge)]
    · rw [getD_set_other _ _ _ _ hn]
      exact h

theorem zero_fold_mem (l : List ℕ) (d : List ℕ) (j : ℕ) (h : j ∈ l) :
    (l.foldl (fun d idx => d.set idx 0) d).getD j 0 = 0 := by
  induction l generalizing d with
  | nil => cases h
  | cons n rest ih =>
    simp only [List.foldl_cons]
    rcases List.mem_cons.mp h with rfl | h
    · apply zero_fold_preserve
      rcases Nat.lt_or_ge j d.length with hlt | hge
      · exact getD_set_same d j 0 hlt
      · rw [getD_out_of_range _ _ (by simpa using hge)]
    · exact ih (d.set n 0) h

theorem zero_fold_other (l : List ℕ) (d : List ℕ) (j : ℕ) :
    (l.foldl (fun d idx => d.set idx 0) d).getD j 0 = d.getD j 0 ∨
    (l.foldl (fun d idx => d.set idx 0) d).getD j 0 = 0 := by
  induction l generalizing d with
  | nil => exact Or.inl rfl
  | cons n rest ih =>
    simp only [List.foldl_cons]
    rcases ih (d.set n 0) with h | h
    · by_cases hn : n = j
      · subst hn
        right
        rw [h]
        rcases Nat.lt_or_ge n d.length with hlt | hge
        · exact getD_set_same d n 0 hlt
        · rw [getD_out_of_range _ _ (by simpa using hge)]
      · left
        rw [h, getD_set_other _ _ _ _ hn]
    · exact Or.inr h

theorem maybeZero_dominated (data comp : List ℕ) (count minSize : ℕ) (j : ℕ) :
    (maybeZero data comp count minSize).getD j 0 = data.getD j 0 ∨
    (maybeZero data comp count minSize).getD j 0 = 0 := by
  rw [maybeZero]
  split
  · exact zero_fold_other comp data j
  · exact Or.inl rfl

theorem despeckleLoop_skip_from (width height minSize : ℕ) :
    ∀ (n : ℕ) (data seen : List ℕ) (i : ℕ), data.length - i ≤ n →
      (∀ iv, i ≤ iv → ¬(data.getD iv 0 = 1 ∧ iv < seen.length ∧ seen.getD iv 0 = 0)) →
      despeckleLoop data width height minSize seen i = data := by
  intro n
  induction n with
  | zero =>
    intro data seen i hn hno
    rw [despeckleLoop, dif_neg (by omega)]
  | succ n ih =>
    intro data seen i hn hno
    rw [despeckleLoop]
    split
    · rw [if_neg (hno i le_rfl)]
      exact ih data seen (i + 1) (by omega) (fun iv hiv => hno iv (by omega))
    · rfl

theorem despeckleLoop_advance (width height minSize : ℕ) (data seen : List ℕ) :
    ∀ (k i : ℕ), (∀ iv, i ≤ iv → iv < i + k → data.getD iv 0 ≠ 1) →
      despeckleLoop data width height minSize seen i =
        despeckleLoop data width height minSize seen (i + k) := by
  intro k
  induction k with
  | zero => intro i _; rfl
  | succ k ih =>
    intro i hno
    rcases Nat.lt_or_ge i data.length with hlt | hge
    · rw [despeckleLoop, dif_pos hlt,
        if_neg (by rintro ⟨h1, -, -⟩; exact hno i le_rfl (by omega) h1)]
      rw [ih (i + 1) (fun iv h1 h2 => hno iv (by omega) (by omega))]
      congr 1
      omega
    · rw [despeckleLoop, dif_neg (by omega)]
      rw [despeckleLoop, dif_neg (by omega)]

theorem despeckleLoop_length (width height minSize : ℕ) :
    ∀ (n : ℕ) (data seen : List ℕ) (i : ℕ), data.length - i ≤ n →
      (despeckleLoop data width height minSize seen i).length = data.length := by
  intro n
  induction n with
  | zero =>
    intro data seen i hn
    rw [despeckleLoop, dif_neg (by omega)]
  | succ n ih =>
    intro data seen i hn
    rw [despeckleLoop]
    split
    · split
      · rw [ih (maybeZero data
            (bfsLoop data width height ⟨seen.set i 1, [i], [i]⟩ 0 0).1.comp
            (bfsLoop data width height ⟨seen.set i 1, [i], [i]⟩ 0 0).2 minSize)
            ((bfsLoop data width height ⟨seen.set i 1, [i], [i]⟩ 0 0).1.seen)
            (i + 1) (by rw [maybeZero_length]; omega)]
        rw [maybeZero_length]
      · exact ih data seen (i + 1) (by omega)
    · rfl

theorem despeckleLoop_dominated (width height minSize : ℕ) :
    ∀ (n : ℕ) (data seen : List ℕ) (i : ℕ), data.length - i ≤ n → ∀ j,
      (despeckleLoop data width height minSize seen i).getD j 0 = data.getD j 0 ∨
      (despeckleLoop data width height minSize seen i).getD j 0 = 0 := by
  intro n
  induction n with
  | zero =>
    intro data seen i hn j
    rw [despeckleLoop, dif_neg (by omega)]
    exact Or.inl rfl
  | succ n ih =>
    intro data seen i hn j
    rw [despeckleLoop]
    split
    · split
      · rcases ih (maybeZero data
            (bfsLoop data width height ⟨seen.set i 1, [i], [i]⟩ 0 0).1.comp
            (bfsLoop data width height ⟨seen.set i 1, [i], [i]⟩ 0 0).2 minSize)
            ((bfsLoop data width height ⟨seen.set i 1, [i], [i]⟩ 0 0).1.seen)
            (i + 1) (by rw [maybeZero_length]; omega) j with h | h
        · rcases maybeZero_dominated data
            (bfsLoop data width height ⟨seen.set i 1, [i], [i]⟩ 0 0).1.comp
            (bfsLoop data width height ⟨seen.set i 1, [i], [i]⟩ 0 0).2 minSize j with h2 | h2
          · exact Or.inl (h.trans h2)
          · exact Or.inr (h.trans h2)
        · exact Or.inr h
      · exact ih data seen (i + 1) (by omega) j
    · exact Or.inl rfl

theorem despeckle_card_mono (data : List ℕ) (width height minSize : ℕ) :
    (inkFinset (despeckleBitmask data width height minSize)).card ≤
      (inkFinset data).card := by
  apply Finset.card_le_card
  intro j hj
  rw [mem_inkFinset] at hj ⊢
  obtain ⟨hjlt, hjval⟩ := hj
  have hlen : (despeckleBitmask data width height minSize).length = data.length :=
    despeckleLoop_length width height minSize data.length data _ 0 (by omega)
  refine ⟨by rwa [hlen] at hjlt, ?_⟩
  rcases despeckleLoop_dominated width height minSize data.length data _ 0 (by omega) j
    with h | h
  · rw [← h]
    exact hjval
  · rw [despeckleBitmask] at hjval
    rw [h] at hjval
    cases hjval

/-- C4: on a binary mask whose ink forms one 4-connected component,
despeckling zeroes the whole mask when the component has fewer than
`minSize` cells and leaves the mask untouched when it has at least
`minSize` cells; afterwards every remaining ink cell belongs to a
component of size at least `minSize`, and the total ink count never
increases (the last conjunct holds for arbitrary masks, by
`despeckle_card_mono`). -/
theorem despeckle_single_component (data : List ℕ) (width height minSize : ℕ)
    (hdim : data.length = width * height)
    (hbin : ∀ j, data.getD j 0 = 0 ∨ data.getD j 0 = 1)
    (hconn : InkConnected data width height) :
    ((inkFinset data).card < minSize →
      ∀ j, (despeckleBitmask data width height minSize).getD j 0 = 0) ∧
    (minSize ≤ (inkFinset data).card →
      despeckleBitmask data width height minSize = data) ∧
    (∀ j, InkCell (despeckleBitmask data width height minSize) j →
      minSize ≤ (componentOf (despeckleBitmask data width height minSize)
        width height j).card) ∧
    (inkFinset (despeckleBitmask data width height minSize)).card ≤
      (inkFinset data).card := by
  by_cases hne : (inkFinset data).Nonempty
  · -- there is ink; run the flood fill at the least ink index
    set i₀ := (inkFinset data).min' hne with hi₀
    have hi₀mem : i₀ ∈ inkFinset data := Finset.min'_mem _ hne
    have hi₀ink : InkCell data i₀ := (mem_inkFinset _ _).mp hi₀mem
    have hbfs := bfs_final data width height i₀ hi₀ink
    obtain ⟨hcore, hcnt, hstack_iff0⟩ := hbfs
    have hstack_iff : ∀ n,
        n ∈ (bfsLoop data width height
          ⟨(List.replicate data.length 0).set i₀ 1, [i₀], [i₀]⟩ 0 0).1.stack ↔
        InkCell data n := by
      intro n
      rw [hstack_iff0 n]
      exact ⟨fun h => h.1, fun h => ⟨h, hconn i₀ n hi₀ink h⟩⟩
    have hcomp : (bfsLoop data width height
        ⟨(List.replicate data.length 0).set i₀ 1, [i₀], [i₀]⟩ 0 0).1.comp =
        (bfsLoop data width height
          ⟨(List.replicate data.length 0).set i₀ 1, [i₀], [i₀]⟩ 0 0).1.stack :=
      hcore.1
    have hseen_iff := hcore.2.2.2.2.1
    have hnodup : (bfsLoop data width height
        ⟨(List.replicate data.length 0).set i₀ 1, [i₀], [i₀]⟩ 0 0).1.stack.Nodup :=
      hcore.2.2.1
    have hcard : (bfsLoop data width height
        ⟨(List.replicate data.length 0).set i₀ 1, [i₀], [i₀]⟩ 0 0).2 =
        (inkFinset data).card := by
      rw [hcnt, ← List.toFinset_card_of_nodup hnodup]
      congr 1
      apply Finset.ext
      intro n
      rw [List.mem_toFinset, hstack_iff, mem_inkFinset]
    have hi₀len : i₀ < data.length := hi₀ink.1
    have hrun : despeckleBitmask data width height minSize =
        despeckleLoop
          (maybeZero data
            (bfsLoop data width height
              ⟨(List.replicate data.length 0).set i₀ 1, [i₀], [i₀]⟩ 0 0).1.comp
            (bfsLoop data width height
              ⟨(List.replicate data.length 0).set i₀ 1, [i₀], [i₀]⟩ 0 0).2 minSize)
          width height minSize
          (bfsLoop data width height
            ⟨(List.replicate data.length 0).set i₀ 1, [i₀], [i₀]⟩ 0 0).1.seen
          (i₀ + 1) := by
      rw [despeckleBitmask]
      have hadv := despeckleLoop_advance width height minSize data
        (List.replicate data.length 0) i₀ 0 (by
          intro iv _ hlt hval
          have hivlen : iv < data.length := by omega
          have hivmem : iv ∈ inkFinset data := (mem_inkFinset _ _).mpr ⟨hivlen, hval⟩
          have := Finset.min'_le _ iv hivmem
          omega)
      rw [zero_add] at hadv
      rw [hadv]
      rw [despeckleLoop, dif_pos hi₀len, if_pos ⟨hi₀ink.2, by
        simpa using hi₀len, getD_replicate_zero _ _⟩]
    by_cases hsize : (inkFinset data).card < minSize
    · -- small component: everything gets zeroed
      have hmz : maybeZero data
          (bfsLoop data width height
            ⟨(List.replicate data.length 0).set i₀ 1, [i₀], [i₀]⟩ 0 0).1.comp
          (bfsLoop data width height
            ⟨(List.replicate data.length 0).set i₀ 1, [i₀], [i₀]⟩ 0 0).2 minSize =
          (bfsLoop data width height
            ⟨(List.replicate data.length 0).set i₀ 1, [i₀], [i₀]⟩ 0 0).1.comp.foldl
            (fun d idx => d.set idx 0) data := by
        rw [maybeZero, if_pos (by rw [hcard]; exact hsize)]
      have hall0 : ∀ j,
          ((bfsLoop data width height
            ⟨(List.replicate data.length 0).set i₀ 1, [i₀], [i₀]⟩ 0 0).1.comp.foldl
            (fun d idx => d.set idx 0) data).getD j 0 = 0 := by
        intro j
        by_cases hink : InkCell data j
        · exact zero_fold_mem _ _ _ (by rw [hcomp]; exact (hstack_iff j).mpr hink)
        · rcases zero_fold_other ((bfsLoop data width height
              ⟨(List.replicate data.length 0).set i₀ 1, [i₀], [i₀]⟩ 0 0).1.comp)
              data j with h | h
          · rw [h]
            rcases hbin j with h0 | h1
            · exact h0
            · exfalso
              apply hink
              refine ⟨?_, h1⟩
              by_contra hge
              push_neg at hge
              rw [getD_out_of_range data j hge] at h1
              cases h1
          · exact h
      have hfinal : despeckleBitmask data width height minSize =
          (bfsLoop data width height
            ⟨(List.replicate data.length 0).set i₀ 1, [i₀], [i₀]⟩ 0 0).1.comp.foldl
            (fun d idx => d.set idx 0) data := by
        rw [hrun, hmz]
        apply despeckleLoop_skip width height minSize
          ((bfsLoop data width height
            ⟨(List.replicate data.length 0).set i₀ 1, [i₀], [i₀]⟩ 0 0).1.comp.foldl
            (fun d idx => d.set idx 0) data).length _ _ (i₀ + 1) (by omega)
        intro j hj
        rw [hall0 j] at hj
        cases hj
      refine ⟨fun _ j => by rw [hfinal]; exact hall0 j, fun hge => by omega, ?_,
        despeckle_card_mono data width height minSize⟩
      intro j hj
      exfalso
      rw [hfinal] at hj
      have := hj.2
      rw [hall0 j] at this
      cases this
    · -- large component: nothing changes
      push_neg at hsize
      have hmz : maybeZero data
          (bfsLoop data width height
            ⟨(List.replicate data.length 0).set i₀ 1, [i₀], [i₀]⟩ 0 0).1.comp
          (bfsLoop data width height
            ⟨(List.replicate data.length 0).set i₀ 1, [i₀], [i₀]⟩ 0 0).2 minSize =
          data := by
        rw [maybeZero, if_neg (by rw [hcard]; omega)]
      have hfinal : despeckleBitmask data width height minSize = data := by
        rw [hrun, hmz]
        apply despeckleLoop_skip_from width height minSize data.length data _ (i₀ + 1)
          (by omega)
        rintro iv hiv ⟨h1, h2, h3⟩
        have hivlen : iv < data.length := by
          by_contra hge
          push_neg at hge
          rw [getD_out_of_range data iv hge] at h1
          cases h1
        have hmem : iv ∈ (bfsLoop data width height
            ⟨(List.replicate data.length 0).set i₀ 1, [i₀], [i₀]⟩ 0 0).1.stack :=
          (hstack_iff iv).mpr ⟨hivlen, h1⟩
        have := (hseen_iff iv).mpr hmem
        rw [h3] at this
        cases this
      refine ⟨fun hlt => by omega, fun _ => hfinal, ?_,
        despeckle_card_mono data width height minSize⟩
      intro j hj
      rw [hfinal] at hj ⊢
      have hcompeq : componentOf data width height j = inkFinset data := by
        apply Finset.ext
        intro i
        simp only [componentOf, Finset.mem_filter]
        constructor
        · exact fun h => h.1
        · intro hi
          exact ⟨hi, hconn j i hj ((mem_inkFinset _ _).mp hi)⟩
      rw [hcompeq]
      exact hsize
  · -- no ink at all: the scan is a no-op and all conjuncts hold trivially
    have hno : ∀ j, data.getD j 0 ≠ 1 := by
      intro j hj
      rcases Nat.lt_or_ge j data.length with hlt | hge
      · exact hne ⟨j, (mem_inkFinset _ _).mpr ⟨hlt, hj⟩⟩
      · rw [getD_out_of_range data j hge] at hj
        cases hj
    have hskip : despeckleBitmask data width height minSize = data :=
      despeckleBitmask_no_ink data width height minSize hno
    refine ⟨?_, fun _ => hskip, ?_, despeckle_card_mono data width height minSize⟩
    · intro _ j
      rw [hskip]
      rcases hbin j with h0 | h1
      · exact h0
      · exact absurd h1 (hno j)
    · intro j hj
      rw [hskip] at hj
      exact absurd hj.2 (hno j)

theorem exMask_bin : ∀ j, ([1, 1] : List ℕ).getD j 0 = 0 ∨ ([1, 1] : List ℕ).getD j 0 = 1 := by
  intro j
  match j with
  | 0 => exact Or.inr rfl
  | 1 => exact Or.inr rfl
  | (k + 2) => exact Or.inl rfl

theorem exMask_conn : InkConnected [1, 1] 2 1 := by
  have h01 : MaskStep [1, 1] 2 1 0 1 :=
    ⟨by decide, ⟨by decide, rfl⟩, ⟨by decide, rfl⟩⟩
  have h10 : MaskStep [1, 1] 2 1 1 0 :=
    ⟨by decide, ⟨by decide, rfl⟩, ⟨by decide, rfl⟩⟩
  intro a b ha hb
  have ha2 : a = 0 ∨ a = 1 := by
    have := ha.1
    simp only [List.length_cons, List.length_nil] at this
    omega
  have hb2 : b = 0 ∨ b = 1 := by
    have := hb.1
    simp only [List.length_cons, List.length_nil] at this
    omega
  rcases ha2 with rfl | rfl <;> rcases hb2 with rfl | rfl
  · exact Relation.ReflTransGen.refl
  · exact Relation.ReflTransGen.single h01
  · exact Relation.ReflTransGen.single h10
  · exact Relation.ReflTransGen.refl

/-- Witness for `despeckle_single_component` at the concrete 2×1 mask
`[1, 1]` (one connected component of 2 cells) with `minSize = 20`. -/
theorem despeckle_single_component_witness :
    ([1, 1] : List ℕ).length = 2 * 1 ∧
    (∀ j, ([1, 1] : List ℕ).getD j 0 = 0 ∨ ([1, 1] : List ℕ).getD j 0 = 1) ∧
    InkConnected [1, 1] 2 1 ∧
    (((inkFinset [1, 1]).card < 20 →
        ∀ j, (despeckleBitmask [1, 1] 2 1 20).getD j 0 = 0) ∧
      (20 ≤ (inkFinset [1, 1]).card → despeckleBitmask [1, 1] 2 1 20 = [1, 1]) ∧
      (∀ j, InkCell (despeckleBitmask [1, 1] 2 1 20) j →
        20 ≤ (componentOf (despeckleBitmask [1, 1] 2 1 20) 2 1 j).card) ∧
      (inkFinset (despeckleBitmask [1, 1] 2 1 20)).card ≤ (inkFinset [1, 1]).card) :=
  ⟨rfl, exMask_bin, exMask_conn,
   despeckle_single_component [1, 1] 2 1 20 rfl exMask_bin exMask_conn⟩

end SigMontion
